import Mathlib

/-!
# hoomd-tf : the IPC task lock and the `IpcToTensor` projection

A shallow embedding of

* `tensorflow_plugin/ipc2tensor/ipc2tensor.cc` : the CPU functor that copies `size`
  four-field records found at a raw address into a flat output buffer, the validation
  functor, and the op kernel (`IpcToTensorOp`) that wraps both;
* `tensorflow_plugin/IPCTaskLock.h` : the four-state latch (`await`, `start`, `end`,
  `_store`, `_change_state`) and the ownership of its mapped region (constructors, move
  assignment, destructor).

Machine integers (`int`) are integers reduced to the signed 32-bit range after every
arithmetic operation.  Memory that cannot be read is `none`, and a read of it makes the
functor fail (`none`).
-/

namespace HoomdTF

/-! ## 32-bit signed arithmetic -/

/-- Reduction of an integer to the range of a 32-bit signed `int`. -/
def wrapInt32 (v : Int) : Int := (v + 2147483648) % 4294967296 - 2147483648

/-- The product of two `int`s. -/
def mul32 (a b : Int) : Int := wrapInt32 (a * b)

/-- The sum of two `int`s. -/
def add32 (a b : Int) : Int := wrapInt32 (a + b)

/-- The constant `tensorflow::kint32max`. -/
def kint32max : Int := 2147483647

/-! ## Records and memory -/

/-- The record type `Scalar4` : four numeric fields `x`, `y`, `z`, `w`.  Its declaration is
not in the two source files; the fields are taken to have the element type `T` of the
output, so that the assignment `out[k] = input_buffer[i].x` is a plain copy. -/
structure Scalar4 (T : Type) where
  x : T
  y : T
  z : T
  w : T
deriving DecidableEq, Repr

/-- Memory seen through a `Scalar4*` : `mem a` is the record stored at byte address `a`, or
`none` when no record can be read there. -/
abbrev Memory (T : Type) := Int → Option (Scalar4 T)

/-- The element `input_buffer[i]` of `input_buffer = reinterpret_cast<Scalar4*>(address)`;
`stride` is `sizeof(Scalar4)`. -/
def input_buffer {T : Type} (stride : Int) (mem : Memory T) (address : Int) (i : Int) :
    Option (Scalar4 T) :=
  mem (address + stride * i)

/-- The assignment `out[idx] = v` on the memory reached from the pointer `out`. -/
def write {T : Type} (out : Int → T) (idx : Int) (v : T) : Int → T :=
  fun j => if j = idx then v else out j

/-! ## The CPU functor -/

/-- One iteration of the loop of `IPC2TFunctor<CPUDevice, T>::operator()`. -/
def functorBody {T : Type} (stride : Int) (mem : Memory T) (address : Int)
    (out : Int → T) (i : Int) : Option (Int → T) :=
  match input_buffer stride mem address i with
  | none => none
  | some r =>
    let out := write out (add32 (mul32 4 i) 0) r.x
    let out := write out (add32 (mul32 4 i) 1) r.y
    let out := write out (add32 (mul32 4 i) 2) r.z
    let out := write out (add32 (mul32 4 i) 3) r.w
    some out

/-- The loop `for (int i = ...; i < size; ++i)` with `remaining` iterations left. -/
def functorLoop {T : Type} (stride : Int) (mem : Memory T) (address : Int) :
    Int → Nat → (Int → T) → Option (Int → T)
  | _, 0, out => some out
  | i, remaining + 1, out =>
    match functorBody stride mem address out i with
    | none => none
    | some out => functorLoop stride mem address (i + 1) remaining out

/-- The call `IPC2TFunctor<CPUDevice, T>()(d, size, address, out)` : the loop runs from
`i = 0` while `i < size`. -/
def IPC2TFunctor {T : Type} (stride : Int) (mem : Memory T) (size : Int) (address : Int)
    (out : Int → T) : Option (Int → T) :=
  functorLoop stride mem address 0 size.toNat out

/-! ### The functor with a log of its accesses -/

/-- The state of the instrumented functor: the output memory, the record indices read and
the output positions written, both in program order. -/
structure Traced (T : Type) where
  out : Int → T
  reads : List Int
  writes : List Int

/-- One iteration of the loop, logging the record read and the four positions written. -/
def tracedBody {T : Type} (stride : Int) (mem : Memory T) (address : Int)
    (s : Traced T) (i : Int) : Option (Traced T) :=
  match input_buffer stride mem address i with
  | none => none
  | some r =>
    let out := write s.out (add32 (mul32 4 i) 0) r.x
    let out := write out (add32 (mul32 4 i) 1) r.y
    let out := write out (add32 (mul32 4 i) 2) r.z
    let out := write out (add32 (mul32 4 i) 3) r.w
    some { out := out
           reads := s.reads ++ [i]
           writes := s.writes ++ [add32 (mul32 4 i) 0, add32 (mul32 4 i) 1,
                                  add32 (mul32 4 i) 2, add32 (mul32 4 i) 3] }

/-- The instrumented loop. -/
def tracedLoop {T : Type} (stride : Int) (mem : Memory T) (address : Int) :
    Int → Nat → Traced T → Option (Traced T)
  | _, 0, s => some s
  | i, remaining + 1, s =>
    match tracedBody stride mem address s i with
    | none => none
    | some s => tracedLoop stride mem address (i + 1) remaining s

/-- The instrumented functor, started with empty logs. -/
def IPC2TFunctorTraced {T : Type} (stride : Int) (mem : Memory T) (size : Int)
    (address : Int) (out : Int → T) : Option (Traced T) :=
  tracedLoop stride mem address 0 size.toNat { out := out, reads := [], writes := [] }

/-! ## Validation and the op kernel -/

/-- The call `IPC2TInitialize<CPUDevice>()(size, address)` : it logs the address and returns
`true`. -/
def IPC2TInitialize (_size : Int) (_address : Int) : Bool := true

/-- The two error codes raised by the kernel. -/
inductive Status where
  | FailedPrecondition
  | InvalidArgument
deriving DecidableEq, Repr

/-- The library call `TensorShapeUtils::MakeShape(dims, n, &out)` of TensorFlow: it clears
the shape and appends `dims[0]`, ..., `dims[n-1]` in turn, stopping at the first negative
entry. -/
def MakeShape (dims : List Int) (n : Nat) : List Int :=
  (dims.take n).takeWhile (fun d => decide (0 ≤ d))

/-- The library method `NumElements()` : the product of the dimensions. -/
def NumElements (shape : List Int) : Int := shape.foldl (fun a d => a * d) 1

/-- The fields of `IpcToTensorOp`. -/
structure IpcToTensorOp where
  _input_size : Int
  _input_address : Int
  _output_shape : List Int
deriving DecidableEq, Repr

/-- The constructor `IpcToTensorOp::IpcToTensorOp` with the attributes `size` and
`address`. -/
def IpcToTensorOp.construct (size : Int) (address : Int) : Except Status IpcToTensorOp :=
  let temp_dims : List Int := [size, 4]
  let _output_shape := MakeShape temp_dims 1
  if IPC2TInitialize size address then
    Except.ok { _input_size := size, _input_address := address,
                _output_shape := _output_shape }
  else
    Except.error Status.FailedPrecondition

/-- An allocated tensor: its shape and the memory reached from `flat<T>().data()`, of which
the positions `0 .. NumElements - 1` belong to the tensor. -/
structure Tensor (T : Type) where
  shape : List Int
  data : Int → T

/-- What an invocation of the kernel ends in: an output, an error status, or an access to
memory that cannot be read. -/
inductive Outcome (T : Type) where
  | ok (output : Tensor T)
  | error (s : Status)
  | fault

/-- The call `context->allocate_output(0, _output_shape, &output_tensor)`, taken to succeed;
`fresh` is the content of the memory it hands out. -/
def allocate_output {T : Type} (shape : List Int) (fresh : Int → T) : Tensor T :=
  { shape := shape, data := fresh }

/-- The method `IpcToTensorOp::Compute`. -/
def IpcToTensorOp.Compute {T : Type} (op : IpcToTensorOp) (stride : Int) (mem : Memory T)
    (fresh : Int → T) : Outcome T :=
  let output_tensor := allocate_output op._output_shape fresh
  if NumElements output_tensor.shape ≤ kint32max then
    match IPC2TFunctor stride mem op._input_size op._input_address output_tensor.data with
    | some data => Outcome.ok { shape := output_tensor.shape, data := data }
    | none => Outcome.fault
  else
    Outcome.error Status.InvalidArgument

/-! ## The task lock -/

/-- The member call `_latch->store(state, ...)` : the value of the latch afterwards. -/
def atomic_store (_latch : Int) (state : Int) : Int := state

/-- The member call `_latch->compare_exchange_weak(expected, desired, ...)` : whether it
succeeded, the latch afterwards and `expected` afterwards.  The weak form may fail although
the latch equals `expected` (`spurious`); on failure `expected` receives the value of the
latch. -/
def compare_exchange_weak (latch expected desired : Int) (spurious : Bool) :
    Bool × Int × Int :=
  if latch = expected ∧ spurious = false then (true, desired, expected)
  else (false, latch, latch)

/-- Where a caller stands inside a method of `IPCTaskLock`. -/
inductive Pc where
  /-- In `await()`, before `_store(1)`. -/
  | awaitStore
  /-- In `end()`, before `_store(3)`. -/
  | endStore
  /-- In `_change_state(state_start, state_end)`, before the compare-and-swap of the loop
  condition, the local variable holding `expected`. -/
  | changeCas (state_start state_end expected : Int)
  /-- In the loop body of `_change_state`, before `expected = state_start`. -/
  | changeReset (state_start state_end expected : Int)
  /-- The method has returned. -/
  | returned
deriving DecidableEq, Repr

/-- The method `_store(state)` : the value of the latch afterwards. -/
def IPCTaskLock._store (latch : Int) (state : Int) : Int := atomic_store latch state

/-- The method `_change_state(state_start, state_end)` : where its caller stands after
`char expected = state_start`. -/
def IPCTaskLock._change_state (state_start state_end : Int) : Pc :=
  Pc.changeCas state_start state_end state_start

/-- The method `await()` : where its caller stands on entry. -/
def IPCTaskLock.await : Pc := Pc.awaitStore

/-- The method `start()` : the call `_change_state(1, 2)`. -/
def IPCTaskLock.start : Pc := IPCTaskLock._change_state 1 2

/-- The method `end()` : where its caller stands on entry. -/
def IPCTaskLock.end_ : Pc := Pc.endStore

/-- The constructor `IPCTaskLock()` : the value it stores in the latch it has mapped (a fresh
anonymous mapping is filled with zeros). -/
def IPCTaskLock.new : Int := atomic_store 0 0

/-- One step of a caller: the latch and the caller's position afterwards. -/
def stepThread (latch : Int) (pc : Pc) (spurious : Bool) : Int × Pc :=
  match pc with
  | Pc.awaitStore => (IPCTaskLock._store latch 1, IPCTaskLock._change_state 3 0)
  | Pc.endStore => (IPCTaskLock._store latch 3, Pc.returned)
  | Pc.changeCas state_start state_end expected =>
    match compare_exchange_weak latch expected state_end spurious with
    | (true, latch, _) => (latch, Pc.returned)
    | (false, latch, expected) => (latch, Pc.changeReset state_start state_end expected)
  | Pc.changeReset state_start state_end _ =>
    (latch, Pc.changeCas state_start state_end state_start)
  | Pc.returned => (latch, Pc.returned)

/-- A caller inside one method call, and the latch. -/
structure Config where
  latch : Int
  pc : Pc
deriving DecidableEq, Repr

/-- What happens next to a call: the caller takes a step of its own, or somebody else writes
`v` to the latch. -/
inductive Event where
  | self (spurious : Bool)
  | env (v : Int)
deriving DecidableEq, Repr

/-- One event. -/
def Config.step (c : Config) : Event → Config
  | Event.self spurious =>
    { latch := (stepThread c.latch c.pc spurious).1, pc := (stepThread c.latch c.pc spurious).2 }
  | Event.env v => { c with latch := v }

/-- A schedule of events, from left to right. -/
def exec (c : Config) (es : List Event) : Config := es.foldl Config.step c

/-! ### The two-party protocol -/

/-- The master loops: own the buffer, `await()`. -/
inductive MasterPc where
  /-- Outside `await()`. -/
  | own
  /-- Inside `await()`. -/
  | inAwait (pc : Pc)
deriving DecidableEq, Repr

/-- The worker loops: `start()`, own the buffer, `end()`. -/
inductive WorkerPc where
  /-- Before the call of `start()`. -/
  | idle
  /-- Inside `start()`. -/
  | inStart (pc : Pc)
  /-- Between the return of `start()` and the call of `end()`. -/
  | own
  /-- Inside `end()`. -/
  | inEnd (pc : Pc)
deriving DecidableEq, Repr

/-- The latch and the positions of both parties. -/
structure Sys where
  latch : Int
  master : MasterPc
  worker : WorkerPc
deriving DecidableEq, Repr

/-- One step of the master. -/
def masterStep (latch : Int) (m : MasterPc) (spurious : Bool) : Int × MasterPc :=
  match m with
  | MasterPc.own => (latch, MasterPc.inAwait IPCTaskLock.await)
  | MasterPc.inAwait pc =>
    match stepThread latch pc spurious with
    | (latch, Pc.returned) => (latch, MasterPc.own)
    | (latch, pc) => (latch, MasterPc.inAwait pc)

/-- One step of the worker. -/
def workerStep (latch : Int) (w : WorkerPc) (spurious : Bool) : Int × WorkerPc :=
  match w with
  | WorkerPc.idle => (latch, WorkerPc.inStart IPCTaskLock.start)
  | WorkerPc.inStart pc =>
    match stepThread latch pc spurious with
    | (latch, Pc.returned) => (latch, WorkerPc.own)
    | (latch, pc) => (latch, WorkerPc.inStart pc)
  | WorkerPc.own => (latch, WorkerPc.inEnd IPCTaskLock.end_)
  | WorkerPc.inEnd pc =>
    match stepThread latch pc spurious with
    | (latch, Pc.returned) => (latch, WorkerPc.idle)
    | (latch, pc) => (latch, WorkerPc.inEnd pc)

/-- Which party takes the next step, and whether a compare-and-swap taken in it fails
spuriously. -/
inductive Action where
  | master (spurious : Bool)
  | worker (spurious : Bool)
deriving DecidableEq, Repr

/-- One step of the protocol. -/
def Sys.step (s : Sys) : Action → Sys
  | Action.master spurious =>
    { s with latch := (masterStep s.latch s.master spurious).1
             master := (masterStep s.latch s.master spurious).2 }
  | Action.worker spurious =>
    { s with latch := (workerStep s.latch s.worker spurious).1
             worker := (workerStep s.latch s.worker spurious).2 }

/-- An interleaving, from left to right. -/
def Sys.run (s : Sys) (acts : List Action) : Sys := acts.foldl Sys.step s

/-- The constructor `IPCTaskLock()` stores 0; the master is outside `await()` and the worker
has not called `start()` yet. -/
def Sys.init : Sys :=
  { latch := IPCTaskLock.new, master := MasterPc.own, worker := WorkerPc.idle }

/-- The master owns the buffer: it is outside `await()`. -/
def masterOwns (s : Sys) : Bool :=
  match s.master with
  | MasterPc.own => true
  | MasterPc.inAwait _ => false

/-- The worker owns the buffer: it is between the return of `start()` and its call of
`end()`. -/
def workerOwns (s : Sys) : Bool :=
  match s.worker with
  | WorkerPc.own => true
  | _ => false

/-- The latch values seen along an interleaving, the first one included. -/
def Sys.latchTrace (s : Sys) : List Action → List Int
  | [] => [s.latch]
  | a :: acts => s.latch :: Sys.latchTrace (s.step a) acts

/-- The values observed in a trace: the trace without the repetitions of a value that
follow it directly. -/
def observed : List Int → List Int
  | [] => []
  | [x] => [x]
  | x :: y :: rest => if x = y then observed (y :: rest) else x :: observed (y :: rest)

/-! ### Calls and invariants -/

/-- A call of `await()` entered with the latch at `l0`, after the events `es`. -/
def awaitCall (l0 : Int) (es : List Event) : Config :=
  exec { latch := l0, pc := IPCTaskLock.await } es

/-- A call of `start()` entered with the latch at `l0`, after the events `es`. -/
def startCall (l0 : Int) (es : List Event) : Config :=
  exec { latch := l0, pc := IPCTaskLock.start } es

/-- The positions a call can be at when it ends in `_change_state(s, e)` : the store of
`await()` (for `s = 3`, `e = 0`), the compare-and-swap with `expected = s`, the reset of
`expected`, or returned. -/
def callPc (s e : Int) (pc : Pc) : Prop :=
  (pc = Pc.awaitStore ∧ s = 3 ∧ e = 0) ∨ pc = Pc.changeCas s e s ∨
    (∃ x, pc = Pc.changeReset s e x) ∨ pc = Pc.returned

/-- The master is outside `await()` or has entered it without having stored yet. -/
def masterOutside (m : MasterPc) : Prop :=
  m = MasterPc.own ∨ m = MasterPc.inAwait Pc.awaitStore

/-- The master spins in `_change_state(3, 0)`. -/
def masterSpinning (m : MasterPc) : Prop :=
  m = MasterPc.inAwait (Pc.changeCas 3 0 3) ∨ ∃ x, m = MasterPc.inAwait (Pc.changeReset 3 0 x)

/-- The worker has not called `start()` yet or spins in `_change_state(1, 2)`. -/
def workerWaiting (w : WorkerPc) : Prop :=
  w = WorkerPc.idle ∨ w = WorkerPc.inStart (Pc.changeCas 1 2 1) ∨
    ∃ x, w = WorkerPc.inStart (Pc.changeReset 1 2 x)

/-- The worker is between `start()` and the store of `end()`. -/
def workerInside (w : WorkerPc) : Prop :=
  w = WorkerPc.own ∨ w = WorkerPc.inEnd Pc.endStore

/-- The invariant of the two-party protocol: which positions go with which latch value. -/
def Sys.Inv (s : Sys) : Prop :=
  (s.latch = 0 ∧ masterOutside s.master ∧ workerWaiting s.worker) ∨
  (s.latch = 1 ∧ masterSpinning s.master ∧ workerWaiting s.worker) ∨
  (s.latch = 2 ∧ masterSpinning s.master ∧ workerInside s.worker) ∨
  (s.latch = 3 ∧ masterSpinning s.master ∧ workerWaiting s.worker)

/-- One of the four changes of the cycle `0 → 1 → 2 → 3 → 0`. -/
def cycleChange (a b : Int) : Prop :=
  (a = 0 ∧ b = 1) ∨ (a = 1 ∧ b = 2) ∨ (a = 2 ∧ b = 3) ∨ (a = 3 ∧ b = 0)

/-- An interleaving of one full round: the worker calls `start()`, the master calls
`await()` and stores, a compare-and-swap of the master fails, the worker's succeeds, the
worker calls `end()` and stores, calls `start()` again, and the master's compare-and-swap
succeeds. -/
def roundSchedule : List Action :=
  [Action.worker false, Action.master false, Action.master false, Action.master false,
   Action.worker false, Action.worker false, Action.worker false, Action.worker false,
   Action.master false, Action.master false]

/-- A schedule on which a call of `await()` returns. -/
def awaitSchedule : List Event :=
  [Event.env 2, Event.self false, Event.self false, Event.self false, Event.env 3,
   Event.self true, Event.self false, Event.self false]

/-- A schedule on which a call of `start()` returns. -/
def startSchedule : List Event :=
  [Event.self false, Event.self false, Event.env 1, Event.self true, Event.self false,
   Event.self false]

/-! ## Concrete inputs -/

/-- A memory in which every address holds a record: the record at `a` is
`(a, a + 1, a + 2, a + 3)`. -/
def demoMemory : Memory Int := fun a => some { x := a, y := a + 1, z := a + 2, w := a + 3 }

/-- A memory in which every address holds the record `(1, 1, 1, 1)`. -/
def onesMemory : Memory Int := fun _ => some { x := 1, y := 1, z := 1, w := 1 }

/-- A memory in which nothing can be read. -/
def unmappedMemory : Memory Int := fun _ => none

/-- An output memory filled with zeros. -/
def zeroOut : Int → Int := fun _ => 0

/-! ## More calls of the task lock -/

/-- A call of `end()` entered with the latch at `l0`, after the events `es`. -/
def endCall (l0 : Int) (es : List Event) : Config :=
  exec { latch := l0, pc := IPCTaskLock.end_ } es

/-- A call of `_change_state(s, e)` entered with the latch at `l0`, after the events `es`. -/
def changeStateCall (s e l0 : Int) (es : List Event) : Config :=
  exec { latch := l0, pc := IPCTaskLock._change_state s e } es

/-- The ceding state that goes with a running state, after the table at the head of
`IPCTaskLock.h` : 0 (master is running) goes with 1 (master is ceding), 2 (worker is
running) goes with 3 (worker is ceding). -/
def cedingCounterpart (state : Int) : Option Int :=
  if state = 0 then some 1 else if state = 2 then some 3 else none

/-- The positions of a call of `_change_state(s, e)` : the compare-and-swap with
`expected = s`, the reset of `expected`, or returned. -/
def spinPc (s e : Int) (pc : Pc) : Prop :=
  pc = Pc.changeCas s e s ∨ (∃ x, pc = Pc.changeReset s e x) ∨ pc = Pc.returned

/-- A schedule on which a call of `_change_state(5, 9)` returns. -/
def changeSchedule : List Event :=
  [Event.self false, Event.self false, Event.env 5, Event.self true, Event.self false,
   Event.self false]

/-! ## Any number of callers -/

/-- The three public methods of `IPCTaskLock`. -/
inductive Method where
  | await
  | start
  | end_
deriving DecidableEq, Repr

/-- Where a caller stands on entry of a method. -/
def Method.entry : Method → Pc
  | Method.await => IPCTaskLock.await
  | Method.start => IPCTaskLock.start
  | Method.end_ => IPCTaskLock.end_

/-- The latch and the positions of all callers; a caller outside any call is at
`Pc.returned`. -/
structure Pool where
  latch : Int
  pcs : Nat → Pc

/-- The position of one caller replaced. -/
def setPc (pcs : Nat → Pc) (caller : Nat) (pc : Pc) : Nat → Pc :=
  fun u => if u = caller then pc else pcs u

/-- What happens next in the pool: a caller outside any call enters a method, or a caller
takes a step. -/
inductive Move where
  | call (caller : Nat) (m : Method)
  | step (caller : Nat) (spurious : Bool)
deriving DecidableEq, Repr

/-- One move; a call by a caller that is inside a call changes nothing. -/
def Pool.step (p : Pool) : Move → Pool
  | Move.call caller m =>
    if p.pcs caller = Pc.returned then { p with pcs := setPc p.pcs caller m.entry } else p
  | Move.step caller spurious =>
    { latch := (stepThread p.latch (p.pcs caller) spurious).1
      pcs := setPc p.pcs caller (stepThread p.latch (p.pcs caller) spurious).2 }

/-- A sequence of moves, from left to right. -/
def Pool.run (p : Pool) (moves : List Move) : Pool := moves.foldl Pool.step p

/-- A newly constructed latch, nobody inside a call. -/
def Pool.init : Pool := { latch := IPCTaskLock.new, pcs := fun _ => Pc.returned }

/-- The positions a caller of `await()`, `start()` or `end()` can be at. -/
def methodPc (pc : Pc) : Prop :=
  pc = Pc.awaitStore ∨ pc = Pc.endStore ∨ pc = Pc.returned ∨
  (∃ x, pc = Pc.changeCas 3 0 x) ∨ (∃ x, pc = Pc.changeReset 3 0 x) ∨
  (∃ x, pc = Pc.changeCas 1 2 x) ∨ (∃ x, pc = Pc.changeReset 1 2 x)

/-- The invariant of the pool. -/
def Pool.Inv (p : Pool) : Prop :=
  (p.latch = 0 ∨ p.latch = 1 ∨ p.latch = 2 ∨ p.latch = 3) ∧ ∀ u, methodPc (p.pcs u)

/-- Moves that violate the protocol: caller 0 calls `end()` first, caller 1 calls `start()`
and spins, caller 2 calls `end()` as well, caller 0 calls `await()`. -/
def unrulyMoves : List Move :=
  [Move.call 0 Method.end_, Move.step 0 false, Move.call 1 Method.start, Move.step 1 false,
   Move.call 2 Method.end_, Move.call 0 Method.await, Move.step 0 false, Move.step 2 false,
   Move.step 0 false]

/-! ## Progress in the two-party protocol -/

/-- The caller spins on a compare-and-swap that cannot succeed while the latch is as it
is. -/
def cannotSucceed (latch : Int) (pc : Pc) : Bool :=
  match pc with
  | Pc.changeCas _ _ expected => decide (latch ≠ expected)
  | Pc.changeReset state_start _ _ => decide (latch ≠ state_start)
  | _ => false

/-- The master spins on a compare-and-swap that cannot succeed. -/
def masterStuck (s : Sys) : Bool :=
  match s.master with
  | MasterPc.own => false
  | MasterPc.inAwait pc => cannotSucceed s.latch pc

/-- The worker spins on a compare-and-swap that cannot succeed. -/
def workerStuck (s : Sys) : Bool :=
  match s.worker with
  | WorkerPc.inStart pc => cannotSucceed s.latch pc
  | WorkerPc.inEnd pc => cannotSucceed s.latch pc
  | _ => false

/-! ## The data flow of the overview: both sides use `end()` and `await()` -/

/-- A party that repeats a list of method calls: the calls, the number of calls entered so
far, and where it stands (`Pc.returned` between two calls). -/
structure Party where
  program : List Method
  next : Nat
  pc : Pc
deriving DecidableEq, Repr

/-- One step of a party: between two calls it enters the next call of its list. -/
def Party.step (latch : Int) (p : Party) (spurious : Bool) : Int × Party :=
  match p.pc with
  | Pc.returned =>
    match p.program[p.next % p.program.length]? with
    | some m => (latch, { p with next := p.next + 1, pc := m.entry })
    | none => (latch, p)
  | pc => ((stepThread latch pc spurious).1, { p with pc := (stepThread latch pc spurious).2 })

/-- The latch, the producer and the consumer. -/
structure Flow where
  latch : Int
  producer : Party
  consumer : Party
deriving DecidableEq, Repr

/-- Which side takes the next step. -/
inductive FlowAction where
  | producer (spurious : Bool)
  | consumer (spurious : Bool)
deriving DecidableEq, Repr

/-- One step of the flow. -/
def Flow.step (f : Flow) : FlowAction → Flow
  | FlowAction.producer spurious =>
    { f with latch := (Party.step f.latch f.producer spurious).1
             producer := (Party.step f.latch f.producer spurious).2 }
  | FlowAction.consumer spurious =>
    { f with latch := (Party.step f.latch f.consumer spurious).1
             consumer := (Party.step f.latch f.consumer spurious).2 }

/-- An interleaving, from left to right. -/
def Flow.run (f : Flow) (acts : List FlowAction) : Flow := acts.foldl Flow.step f

/-- The flow of the overview: the producer repeats `end()`, `await()`, the consumer repeats
`await()`, `end()`; the latch is newly constructed. -/
def Flow.init : Flow :=
  { latch := IPCTaskLock.new
    producer := { program := [Method.end_, Method.await], next := 0, pc := Pc.returned }
    consumer := { program := [Method.await, Method.end_], next := 0, pc := Pc.returned } }

/-- The caller spins in `_change_state(3, 0)`. -/
def spinsInAwait (pc : Pc) : Prop :=
  pc = Pc.changeCas 3 0 3 ∨ ∃ x, pc = Pc.changeReset 3 0 x

/-- An interleaving of the overview: the consumer enters `await()` and stores 1, the producer
enters `end()` and stores 3, and goes on to enter `await()` and to store 1. -/
def lostHandoffSchedule : List FlowAction :=
  [FlowAction.consumer false, FlowAction.consumer false, FlowAction.producer false,
   FlowAction.producer false, FlowAction.producer false, FlowAction.producer false]

/-! ## Ownership of the mapped region -/

/-- The `IPCTaskLock` objects and the system calls made for them: `latchOf o` is the field
`_latch` of the object `o` (0 is `nullptr`) and `none` while `o` is not alive, `maps` lists
the addresses returned by `mmap` and `unmaps` the addresses passed to `munmap`, both in
order. -/
structure Objects where
  latchOf : Nat → Option Int
  maps : List Int
  unmaps : List Int

/-- No object, no call. -/
def Objects.empty : Objects := { latchOf := fun _ => none, maps := [], unmaps := [] }

/-- The field `_latch` of the object `o` set (`none` ends the life of `o`). -/
def Objects.setLatch (st : Objects) (o : Nat) (v : Option Int) : Objects :=
  { st with latchOf := fun u => if u = o then v else st.latchOf u }

/-- The call `munmap(addr, sizeof(std::atomic_char))`. -/
def Objects.munmap (st : Objects) (addr : Int) : Objects :=
  { st with unmaps := st.unmaps ++ [addr] }

/-- The statement `if(_latch) munmap(_latch, sizeof(std::atomic_char));` with `_latch`
holding `l`. -/
def Objects.unmapIfSet (st : Objects) (l : Int) : Objects :=
  if l ≠ 0 then st.munmap l else st

/-- The constructor `IPCTaskLock()` of the object `o`; `region` is the address that `mmap`
returns. -/
def IPCTaskLock.construct (st : Objects) (o : Nat) (region : Int) : Objects :=
  ({ st with maps := st.maps ++ [region] }).setLatch o (some region)

/-- The move assignment `operator=(IPCTaskLock&& other)` of the object `this`. -/
def IPCTaskLock.moveAssign (st : Objects) (this other : Nat) : Objects :=
  match st.latchOf this with
  | none => st
  | some l =>
    let st := st.unmapIfSet l
    match st.latchOf other with
    | none => st
    | some otherLatch =>
      let st := st.setLatch this (some otherLatch)
      st.setLatch other (some 0)

/-- The move constructor `IPCTaskLock(IPCTaskLock&& other)` of the object `o` : the field
`_latch` has no initialiser and holds `garbage` when `*this = std::move(other)` runs. -/
def IPCTaskLock.moveConstruct (st : Objects) (o other : Nat) (garbage : Int) : Objects :=
  IPCTaskLock.moveAssign (st.setLatch o (some garbage)) o other

/-- The destructor `~IPCTaskLock()` of the object `o`. -/
def IPCTaskLock.destruct (st : Objects) (o : Nat) : Objects :=
  match st.latchOf o with
  | none => st
  | some l => (st.unmapIfSet l).setLatch o none

/-- One operation on the objects. -/
inductive Op where
  | construct (o : Nat) (region : Int)
  | moveConstruct (o other : Nat) (garbage : Int)
  | moveAssign (this other : Nat)
  | destruct (o : Nat)
deriving DecidableEq, Repr

/-- One operation carried out. -/
def Objects.apply (st : Objects) : Op → Objects
  | Op.construct o region => IPCTaskLock.construct st o region
  | Op.moveConstruct o other garbage => IPCTaskLock.moveConstruct st o other garbage
  | Op.moveAssign this other => IPCTaskLock.moveAssign st this other
  | Op.destruct o => IPCTaskLock.destruct st o

/-- A sequence of operations, from left to right. -/
def Objects.run (st : Objects) (ops : List Op) : Objects := ops.foldl Objects.apply st

/-- The operation is applied to objects in the right state of life: a constructor to an
object not yet alive, an assignment or a destructor to live objects; `mmap` returns a new
address that is not null; and the uninitialised field of a move construction happens to hold
`nullptr`. -/
def Op.valid (st : Objects) : Op → Prop
  | Op.construct o region => st.latchOf o = none ∧ region ≠ 0 ∧ region ∉ st.maps
  | Op.moveConstruct o other garbage =>
    st.latchOf o = none ∧ st.latchOf other ≠ none ∧ garbage = 0
  | Op.moveAssign this other => st.latchOf this ≠ none ∧ st.latchOf other ≠ none
  | Op.destruct o => st.latchOf o ≠ none

/-- Exclusive ownership: a region held by a live object has been mapped and not unmapped, no
two live objects hold the same region, no region has been unmapped twice, and only mapped
regions have been unmapped. -/
def Objects.Exclusive (st : Objects) : Prop :=
  (∀ o l, st.latchOf o = some l → l ≠ 0 → l ∈ st.maps ∧ l ∉ st.unmaps) ∧
  (∀ o1 o2 l, st.latchOf o1 = some l → st.latchOf o2 = some l → l ≠ 0 → o1 = o2) ∧
  st.unmaps.Nodup ∧
  (∀ l, l ∈ st.unmaps → l ∈ st.maps)

/-- Every operation of the sequence is valid in the state it is applied to. -/
def Objects.validRun (st : Objects) : List Op → Prop
  | [] => True
  | op :: ops => op.valid st ∧ Objects.validRun (st.apply op) ops

/-- Two latches: object 0 holds the region at 100, object 1 the region at 200. -/
def twoLatches : Objects :=
  Objects.run Objects.empty [Op.construct 0 100, Op.construct 1 200]

/-! ## Lemmas on 32-bit arithmetic -/

theorem wrapInt32_lt (v : Int) : wrapInt32 v < 2147483648 := by
  unfold wrapInt32; omega

theorem wrapInt32_ge (v : Int) : -2147483648 ≤ wrapInt32 v := by
  unfold wrapInt32; omega

theorem wrapInt32_eq_self (v : Int) (h1 : -2147483648 ≤ v) (h2 : v < 2147483648) :
    wrapInt32 v = v := by
  unfold wrapInt32; omega

/-- The index `4 * i + k` is exact as long as it fits in an `int`. -/
theorem index_exact (i k : Int) (hi : 0 ≤ i) (hk : 0 ≤ k) (h : 4 * i + k < 2147483648) :
    add32 (mul32 4 i) k = 4 * i + k := by
  unfold add32 mul32 wrapInt32; omega

theorem index_lt (i k : Int) : add32 (mul32 4 i) k < 2147483648 := wrapInt32_lt _

/-! ## Lemmas on the loop of the functor -/

section Loop
variable {T : Type}

theorem write_same (out : Int → T) (idx : Int) (v : T) : write out idx v idx = v := by
  simp [write]

theorem write_other (out : Int → T) (idx p : Int) (v : T) (h : p ≠ idx) :
    write out idx v p = out p := by
  simp [write, h]

/-- The body changes no position other than the four it writes. -/
theorem functorBody_frame (stride : Int) (mem : Memory T) (address : Int) (out out1 : Int → T)
    (i p : Int) (h : functorBody stride mem address out i = some out1)
    (h0 : p ≠ add32 (mul32 4 i) 0) (h1 : p ≠ add32 (mul32 4 i) 1)
    (h2 : p ≠ add32 (mul32 4 i) 2) (h3 : p ≠ add32 (mul32 4 i) 3) : out1 p = out p := by
  unfold functorBody at h
  cases hr : input_buffer stride mem address i with
  | none => simp [hr] at h
  | some r =>
    simp only [hr, Option.some.injEq] at h
    subst h
    simp [write, h0, h1, h2, h3]

/-- The loop changes no position other than those its iterations write. -/
theorem functorLoop_frame (stride : Int) (mem : Memory T) (address : Int) (p : Int) :
    ∀ (n : Nat) (i : Int) (out out1 : Int → T),
      functorLoop stride mem address i n out = some out1 →
      (∀ j, i ≤ j → j < i + n →
        p ≠ add32 (mul32 4 j) 0 ∧ p ≠ add32 (mul32 4 j) 1 ∧
        p ≠ add32 (mul32 4 j) 2 ∧ p ≠ add32 (mul32 4 j) 3) →
      out1 p = out p := by
  intro n
  induction n with
  | zero =>
    intro i out out1 h _
    simp only [functorLoop, Option.some.injEq] at h
    rw [h]
  | succ n ih =>
    intro i out out1 h hp
    simp only [functorLoop] at h
    cases hb : functorBody stride mem address out i with
    | none => simp [hb] at h
    | some o =>
      simp only [hb] at h
      have h1 := ih (i + 1) o out1 h (fun j hj1 hj2 => hp j (by omega) (by push_cast; omega))
      have hi := hp i (le_refl _) (by push_cast; omega)
      rw [h1]
      exact functorBody_frame stride mem address out o i p hb hi.1 hi.2.1 hi.2.2.1 hi.2.2.2

/-- The loop succeeds when every record it visits can be read. -/
theorem functorLoop_isSome (stride : Int) (mem : Memory T) (address : Int) :
    ∀ (n : Nat) (i : Int) (out : Int → T),
      (∀ j, i ≤ j → j < i + n → (input_buffer stride mem address j).isSome = true) →
      ∃ out1, functorLoop stride mem address i n out = some out1 := by
  intro n
  induction n with
  | zero => intro i out _; exact ⟨out, rfl⟩
  | succ n ih =>
    intro i out hm
    have hi := hm i (le_refl _) (by push_cast; omega)
    obtain ⟨r, hr⟩ := Option.isSome_iff_exists.mp hi
    simp only [functorLoop, functorBody, hr]
    exact ih (i + 1) _ (fun j hj1 hj2 => hm j (by omega) (by push_cast; omega))

/-- What the body leaves at the four positions of record `i`. -/
theorem functorBody_value (stride : Int) (mem : Memory T) (address : Int) (out out1 : Int → T)
    (i : Int) (r : Scalar4 T) (hi : 0 ≤ i) (hlt : 4 * i + 3 < 2147483648)
    (hr : input_buffer stride mem address i = some r)
    (h : functorBody stride mem address out i = some out1) :
    out1 (4 * i + 0) = r.x ∧ out1 (4 * i + 1) = r.y ∧
    out1 (4 * i + 2) = r.z ∧ out1 (4 * i + 3) = r.w := by
  unfold functorBody at h
  simp only [hr, Option.some.injEq] at h
  subst h
  rw [index_exact i 0 hi (by omega) (by omega), index_exact i 1 hi (by omega) (by omega),
    index_exact i 2 hi (by omega) (by omega), index_exact i 3 hi (by omega) (by omega)]
  refine ⟨?_, ?_, ?_, ?_⟩ <;> simp [write]

/-- Without overflow of the index, the loop leaves record `j` at positions `4j .. 4j+3`. -/
theorem functorLoop_value (stride : Int) (mem : Memory T) (address : Int) :
    ∀ (n : Nat) (i : Int) (out out1 : Int → T), 0 ≤ i → i + n ≤ 536870912 →
      functorLoop stride mem address i n out = some out1 →
      ∀ j r, i ≤ j → j < i + n → input_buffer stride mem address j = some r →
        out1 (4 * j + 0) = r.x ∧ out1 (4 * j + 1) = r.y ∧
        out1 (4 * j + 2) = r.z ∧ out1 (4 * j + 3) = r.w := by
  intro n
  induction n with
  | zero => intro i out out1 _ _ _ j r h1 h2; exact absurd h2 (by push_cast; omega)
  | succ n ih =>
    intro i out out1 hi hn h j r hj1 hj2 hr
    simp only [functorLoop] at h
    cases hb : functorBody stride mem address out i with
    | none => simp [hb] at h
    | some o =>
      simp only [hb] at h
      push_cast at hn hj2
      by_cases hji : j = i
      · subst hji
        have hv := functorBody_value stride mem address out o j r hi (by omega) hr hb
        have hfr : ∀ k, 0 ≤ k → k ≤ 3 → out1 (4 * j + k) = o (4 * j + k) := by
          intro k hk0 hk3
          apply functorLoop_frame stride mem address (4 * j + k) n (j + 1) o out1 h
          intro j2 hj21 hj22
          rw [index_exact j2 0 (by omega) (by omega) (by omega),
            index_exact j2 1 (by omega) (by omega) (by omega),
            index_exact j2 2 (by omega) (by omega) (by omega),
            index_exact j2 3 (by omega) (by omega) (by omega)]
          refine ⟨?_, ?_, ?_, ?_⟩ <;> omega
        rw [hfr 0 (by omega) (by omega), hfr 1 (by omega) (by omega),
          hfr 2 (by omega) (by omega), hfr 3 (by omega) (by omega)]
        exact hv
      · exact ih (i + 1) o out1 (by omega) (by omega) h j r (by omega) (by omega) hr

/-- The index never exceeds its mathematical value. -/
theorem index_le (i k : Int) (hi : 0 ≤ i) (hk : 0 ≤ k) :
    add32 (mul32 4 i) k ≤ 4 * i + k := by
  unfold add32 mul32 wrapInt32; omega

/-- The loop reads only the records it visits. -/
theorem functorLoop_congr (stride : Int) (mem mem2 : Memory T) (address : Int) :
    ∀ (n : Nat) (i : Int) (out : Int → T),
      (∀ j, i ≤ j → j < i + n →
        input_buffer stride mem2 address j = input_buffer stride mem address j) →
      functorLoop stride mem2 address i n out = functorLoop stride mem address i n out := by
  intro n
  induction n with
  | zero => intro i out _; rfl
  | succ n ih =>
    intro i out hm
    have hi := hm i (le_refl _) (by push_cast; omega)
    simp only [functorLoop, functorBody, hi]
    cases input_buffer stride mem address i with
    | none => rfl
    | some r => exact ih (i + 1) _ (fun j hj1 hj2 => hm j (by omega) (by push_cast; omega))

/-- The instrumented loop computes the output of the loop. -/
theorem tracedLoop_out (stride : Int) (mem : Memory T) (address : Int) :
    ∀ (n : Nat) (i : Int) (s : Traced T),
      (tracedLoop stride mem address i n s).map Traced.out =
        functorLoop stride mem address i n s.out := by
  intro n
  induction n with
  | zero => intro i s; rfl
  | succ n ih =>
    intro i s
    simp only [tracedLoop, tracedBody, functorLoop, functorBody]
    cases input_buffer stride mem address i with
    | none => rfl
    | some r => exact ih (i + 1) _

/-- The logs of the instrumented loop. -/
theorem tracedLoop_logs (stride : Int) (mem : Memory T) (address : Int) :
    ∀ (n : Nat) (i : Int) (s t : Traced T), tracedLoop stride mem address i n s = some t →
      t.reads = s.reads ++ (List.range n).map (fun k : Nat => i + (k : Int)) ∧
      t.writes = s.writes ++ (List.range n).flatMap (fun k : Nat =>
        [add32 (mul32 4 (i + (k : Int))) 0, add32 (mul32 4 (i + (k : Int))) 1,
         add32 (mul32 4 (i + (k : Int))) 2, add32 (mul32 4 (i + (k : Int))) 3]) := by
  intro n
  induction n with
  | zero =>
    intro i s t h
    simp only [tracedLoop, Option.some.injEq] at h
    subst h
    simp
  | succ n ih =>
    intro i s t h
    simp only [tracedLoop, tracedBody] at h
    cases hr : input_buffer stride mem address i with
    | none => simp [hr] at h
    | some r =>
      simp only [hr] at h
      obtain ⟨h1, h2⟩ := ih (i + 1) _ t h
      have e : ∀ k : Nat, i + 1 + (k : Int) = i + ((k + 1 : Nat) : Int) := by
        intro k; push_cast; omega
      constructor
      · rw [h1, List.range_succ_eq_map]
        simp [List.map_map, Function.comp_def, e]
      · rw [h2, List.range_succ_eq_map]
        simp [List.flatMap_cons, List.flatMap_map, Function.comp_def, e]

/-- The positions `0 .. 4n - 1` listed four at a time. -/
theorem flatMap_four (n : Nat) :
    (List.range n).flatMap (fun k : Nat =>
      [4 * (k : Int) + 0, 4 * (k : Int) + 1, 4 * (k : Int) + 2, 4 * (k : Int) + 3]) =
    (List.range (4 * n)).map (fun k : Nat => (k : Int)) := by
  induction n with
  | zero => rfl
  | succ n ih =>
    rw [List.range_succ, List.flatMap_append, ih, show 4 * (n + 1) = 4 * n + 4 from by omega,
      List.range_add]
    simp [List.range_succ]

/-- The last iteration of the loop, split off. -/
theorem functorLoop_succ_last (stride : Int) (mem : Memory T) (address : Int) :
    ∀ (n : Nat) (i : Int) (out : Int → T),
      functorLoop stride mem address i (n + 1) out =
        (functorLoop stride mem address i n out).bind
          (fun o => functorBody stride mem address o (i + (n : Int))) := by
  intro n
  induction n with
  | zero =>
    intro i out
    simp only [functorLoop, Option.some_bind, Int.Nat.cast_ofNat_Int, add_zero]
    cases functorBody stride mem address out i <;> rfl
  | succ n ih =>
    intro i out
    rw [functorLoop]
    cases hb : functorBody stride mem address out i with
    | none => simp [functorLoop, hb]
    | some o =>
      simp only []
      rw [ih (i + 1) o]
      have e : i + 1 + (n : Int) = i + ((n + 1 : Nat) : Int) := by push_cast; omega
      rw [e]
      conv_rhs => rw [functorLoop]
      simp only [hb]

/-- The instrumented loop succeeds when the loop does. -/
theorem tracedLoop_of_functorLoop (stride : Int) (mem : Memory T) (address : Int)
    (n : Nat) (i : Int) (s : Traced T) (out : Int → T)
    (h : functorLoop stride mem address i n s.out = some out) :
    ∃ t, tracedLoop stride mem address i n s = some t ∧ t.out = out := by
  have h1 := tracedLoop_out stride mem address n i s
  rw [h] at h1
  cases ht : tracedLoop stride mem address i n s with
  | none => simp [ht] at h1
  | some t =>
    simp only [ht, Option.map_some', Option.some.injEq] at h1
    exact ⟨t, rfl, h1⟩

end Loop

/-- The projection of `2^29` records `(1, 1, 1, 1)` succeeds and writes the last
position. -/
theorem projection_value_exists :
    ∃ out, IPC2TFunctor 16 onesMemory 536870912 0 zeroOut = some out ∧
      out (4 * 536870911 + 3) = 1 := by
  obtain ⟨out, h⟩ := functorLoop_isSome 16 onesMemory 0 (Int.toNat 536870912) 0 zeroOut
    (fun _ _ _ => rfl)
  refine ⟨out, h, ?_⟩
  have hcast : ((Int.toNat 536870912 : Nat) : Int) = 536870912 := by decide
  exact (functorLoop_value 16 onesMemory 0 (Int.toNat 536870912) 0 zeroOut out (le_refl _)
    (by omega) h 536870911 { x := 1, y := 1, z := 1, w := 1 } (by omega) (by omega) rfl).2.2.2

/-- An invocation whose output passes the element-count check returns what the projection
leaves. -/
theorem Compute_ok {T : Type} (op : IpcToTensorOp) (stride : Int) (mem : Memory T)
    (fresh out : Int → T) (hle : NumElements op._output_shape ≤ kint32max)
    (h : IPC2TFunctor stride mem op._input_size op._input_address fresh = some out) :
    IpcToTensorOp.Compute op stride mem fresh =
      Outcome.ok { shape := op._output_shape, data := out } := by
  unfold IpcToTensorOp.Compute allocate_output
  simp only [hle, if_true, h]

/-! ## The projection -/

/-- C1, as stated, fails: with `N = 2^29 + 1` records, all equal to `(1, 1, 1, 1)`, and an
output memory of zeros, the projection succeeds but position `4 * i + 0` for the last record
`i = 2^29` still holds `0`, not the field `x = 1` of that record: the index `4 * i`
computed as an `int` is `-2^31`. -/
theorem projection_fidelity_fails_past_int_range :
    ∃ out, IPC2TFunctor 16 onesMemory 536870913 0 zeroOut = some out ∧
      input_buffer 16 onesMemory 0 536870912 = some { x := 1, y := 1, z := 1, w := 1 } ∧
      out (4 * 536870912 + 0) = 0 := by
  obtain ⟨out, h⟩ := functorLoop_isSome 16 onesMemory 0 (Int.toNat 536870913) 0 zeroOut
    (fun _ _ _ => rfl)
  refine ⟨out, h, rfl, ?_⟩
  have hf := functorLoop_frame 16 onesMemory 0 (4 * 536870912 + 0) _ 0 zeroOut out h
    (fun j _ _ => by
      have h0 := index_lt j 0
      have h1 := index_lt j 1
      have h2 := index_lt j 2
      have h3 := index_lt j 3
      refine ⟨?_, ?_, ?_, ?_⟩ <;> omega)
  rw [hf]
  rfl

/-- C1, amended: for every count `N` with `0 ≤ N ≤ 2^29` and every memory holding `N`
records at the address, the projection succeeds and its output holds, for every record index
`i` with `0 ≤ i < N`, the fields `x`, `y`, `z`, `w` of record `i` at the positions `4i`,
`4i + 1`, `4i + 2`, `4i + 3`. -/
theorem projection_fidelity {T : Type} (stride : Int) (mem : Memory T) (N address : Int)
    (out0 : Int → T) (hN0 : 0 ≤ N) (hN : N ≤ 536870912)
    (hmem : ∀ i, 0 ≤ i → i < N → (input_buffer stride mem address i).isSome = true) :
    ∃ out, IPC2TFunctor stride mem N address out0 = some out ∧
      ∀ i r, 0 ≤ i → i < N → input_buffer stride mem address i = some r →
        out (4 * i + 0) = r.x ∧ out (4 * i + 1) = r.y ∧
        out (4 * i + 2) = r.z ∧ out (4 * i + 3) = r.w := by
  have hcast : ((N.toNat : Nat) : Int) = N := Int.toNat_of_nonneg hN0
  obtain ⟨out, h⟩ := functorLoop_isSome stride mem address N.toNat 0 out0
    (fun j hj1 hj2 => hmem j hj1 (by omega))
  refine ⟨out, h, ?_⟩
  intro i r hi1 hi2 hr
  exact functorLoop_value stride mem address N.toNat 0 out0 out (le_refl _) (by omega) h
    i r hi1 (by omega) hr

/-- C1, amended, at two records found at address 100. -/
theorem projection_fidelity_witness :
    (0 : Int) ≤ 2 ∧ (2 : Int) ≤ 536870912 ∧
    (∀ i : Int, 0 ≤ i → i < 2 → (input_buffer 16 demoMemory 100 i).isSome = true) ∧
    ∃ out, IPC2TFunctor 16 demoMemory 2 100 zeroOut = some out ∧
      ∀ i r, 0 ≤ i → i < 2 → input_buffer 16 demoMemory 100 i = some r →
        out (4 * i + 0) = r.x ∧ out (4 * i + 1) = r.y ∧
        out (4 * i + 2) = r.z ∧ out (4 * i + 3) = r.w :=
  ⟨by decide, by decide, fun _ _ _ => rfl,
    projection_fidelity 16 demoMemory 2 100 zeroOut (by decide) (by decide)
      (fun _ _ _ => rfl)⟩

/-- C7, as stated, fails: with `N = 2^29 + 1` records the projection writes the position
`-2^31`, which lies outside `[0, 4N)`: the position is in the write log, and the output
memory holds `1` there after the call where it held `0` before. -/
theorem bounded_writes_fail_past_int_range :
    ∃ t, IPC2TFunctorTraced 16 onesMemory 536870913 0 zeroOut = some t ∧
      IPC2TFunctor 16 onesMemory 536870913 0 zeroOut = some t.out ∧
      (-2147483648 : Int) ∈ t.writes ∧
      t.out (-2147483648) = 1 ∧ zeroOut (-2147483648) = 0 := by
  have hn : Int.toNat 536870913 = 536870912 + 1 := rfl
  obtain ⟨out, h⟩ := functorLoop_isSome 16 onesMemory 0 (Int.toNat 536870913) 0 zeroOut
    (fun _ _ _ => rfl)
  obtain ⟨t, ht, hto⟩ := tracedLoop_of_functorLoop 16 onesMemory 0 (Int.toNat 536870913) 0
    { out := zeroOut, reads := [], writes := [] } out h
  refine ⟨t, ht, by rw [hto]; exact h, ?_, ?_, rfl⟩
  · have hlt : 536870912 < Int.toNat 536870913 :=
      Nat.lt_of_lt_of_eq (Nat.lt_succ_self 536870912) hn.symm
    have hw := (tracedLoop_logs 16 onesMemory 0 _ 0 _ t ht).2
    rw [hw]
    apply List.mem_append_right
    apply List.mem_flatMap.mpr
    refine ⟨536870912, List.mem_range.mpr hlt, ?_⟩
    simp [add32, mul32, wrapInt32]
  · rw [hto]
    rw [hn, functorLoop_succ_last] at h
    obtain ⟨o, _, ho⟩ := Option.bind_eq_some.mp h
    simp only [functorBody, input_buffer, onesMemory, Option.some.injEq] at ho
    rw [← ho]
    simp [write, add32, mul32, wrapInt32]

/-- C7, amended: for every count `N ≥ 0` and every memory holding `N` records at the address,
the projection reads exactly the records `0 .. N - 1`, each once and in order, every output
position `≥ 4N` keeps its value, and a memory that agrees on the first `N` records gives the
same result; when moreover `N ≤ 2^29`, the positions written are exactly `0 .. 4N - 1`, each
once and in order, and every position outside `[0, 4N)` keeps its value. -/
theorem bounded_reads_writes {T : Type} (stride : Int) (mem : Memory T) (N address : Int)
    (out0 : Int → T) (hN0 : 0 ≤ N)
    (hmem : ∀ i, 0 ≤ i → i < N → (input_buffer stride mem address i).isSome = true) :
    ∃ t, IPC2TFunctorTraced stride mem N address out0 = some t ∧
      IPC2TFunctor stride mem N address out0 = some t.out ∧
      t.reads = (List.range N.toNat).map (fun k : Nat => (k : Int)) ∧
      (∀ p, 4 * N ≤ p → t.out p = out0 p) ∧
      (∀ mem2 : Memory T,
        (∀ i, 0 ≤ i → i < N →
          input_buffer stride mem2 address i = input_buffer stride mem address i) →
        IPC2TFunctor stride mem2 N address out0 = IPC2TFunctor stride mem N address out0) ∧
      (N ≤ 536870912 →
        t.writes = (List.range (4 * N.toNat)).map (fun k : Nat => (k : Int)) ∧
        ∀ p, (p < 0 ∨ 4 * N ≤ p) → t.out p = out0 p) := by
  have hcast : ((N.toNat : Nat) : Int) = N := Int.toNat_of_nonneg hN0
  obtain ⟨out, h⟩ := functorLoop_isSome stride mem address N.toNat 0 out0
    (fun j hj1 hj2 => hmem j hj1 (by omega))
  obtain ⟨t, ht, hto⟩ := tracedLoop_of_functorLoop stride mem address N.toNat 0
    { out := out0, reads := [], writes := [] } out h
  obtain ⟨hr, hw⟩ := tracedLoop_logs stride mem address _ 0 _ t ht
  refine ⟨t, ht, by rw [hto]; exact h, ?_, ?_, ?_, ?_⟩
  · rw [hr]; simp
  · intro p hp
    rw [hto]
    apply functorLoop_frame stride mem address p N.toNat 0 out0 out h
    intro j hj1 hj2
    have h0 := index_le j 0 hj1 (by omega)
    have h1 := index_le j 1 hj1 (by omega)
    have h2 := index_le j 2 hj1 (by omega)
    have h3 := index_le j 3 hj1 (by omega)
    refine ⟨?_, ?_, ?_, ?_⟩ <;> omega
  · intro mem2 hagree
    exact functorLoop_congr stride mem mem2 address N.toNat 0 out0
      (fun j hj1 hj2 => hagree j hj1 (by omega))
  · intro hN
    constructor
    · rw [hw, ← flatMap_four]
      simp only [List.nil_append]
      apply List.flatMap_congr
      intro k hk
      have hk2 : (k : Int) < N := by
        have := List.mem_range.mp hk
        omega
      rw [index_exact (0 + (k : Int)) 0 (by omega) (by omega) (by omega),
        index_exact (0 + (k : Int)) 1 (by omega) (by omega) (by omega),
        index_exact (0 + (k : Int)) 2 (by omega) (by omega) (by omega),
        index_exact (0 + (k : Int)) 3 (by omega) (by omega) (by omega)]
      simp
    · intro p hp
      rw [hto]
      apply functorLoop_frame stride mem address p N.toNat 0 out0 out h
      intro j hj1 hj2
      rw [index_exact j 0 hj1 (by omega) (by omega), index_exact j 1 hj1 (by omega) (by omega),
        index_exact j 2 hj1 (by omega) (by omega), index_exact j 3 hj1 (by omega) (by omega)]
      refine ⟨?_, ?_, ?_, ?_⟩ <;> omega

/-- C7, amended, at two records found at address 100. -/
theorem bounded_reads_writes_witness :
    (0 : Int) ≤ 2 ∧
    (∀ i : Int, 0 ≤ i → i < 2 → (input_buffer 16 demoMemory 100 i).isSome = true) ∧
    ∃ t, IPC2TFunctorTraced 16 demoMemory 2 100 zeroOut = some t ∧
      IPC2TFunctor 16 demoMemory 2 100 zeroOut = some t.out ∧
      t.reads = (List.range (Int.toNat 2)).map (fun k : Nat => (k : Int)) ∧
      (∀ p, 4 * 2 ≤ p → t.out p = zeroOut p) ∧
      (∀ mem2 : Memory Int,
        (∀ i, 0 ≤ i → i < 2 →
          input_buffer 16 mem2 100 i = input_buffer 16 demoMemory 100 i) →
        IPC2TFunctor 16 mem2 2 100 zeroOut = IPC2TFunctor 16 demoMemory 2 100 zeroOut) ∧
      ((2 : Int) ≤ 536870912 →
        t.writes = (List.range (4 * Int.toNat 2)).map (fun k : Nat => (k : Int)) ∧
        ∀ p, (p < 0 ∨ 4 * 2 ≤ p) → t.out p = zeroOut p) :=
  ⟨by decide, fun _ _ _ => rfl,
    bounded_reads_writes 16 demoMemory 2 100 zeroOut (by decide) (fun _ _ _ => rfl)⟩

/-- C8: whatever the address, validation with size 0 succeeds, and the projection with size 0
succeeds on every memory (readable or not) with empty read and write logs and the output
memory untouched; the kernel built with size 0 returns a tensor of zero elements. -/
theorem size_zero_boundary {T : Type} (stride address : Int) (mem : Memory T)
    (out0 : Int → T) :
    IPC2TInitialize 0 address = true ∧
    IPC2TFunctorTraced stride mem 0 address out0 =
      some { out := out0, reads := [], writes := [] } ∧
    IPC2TFunctor stride mem 0 address out0 = some out0 ∧
    ∃ op, IpcToTensorOp.construct 0 address = Except.ok op ∧
      NumElements op._output_shape = 0 ∧
      IpcToTensorOp.Compute op stride mem out0 =
        Outcome.ok { shape := op._output_shape, data := out0 } :=
  ⟨rfl, rfl, rfl, _, rfl, rfl, rfl⟩

/-! ## The op kernel -/

/-- C4, the code at size 3: the constructor builds the shape from the first entry of
`{size, 4}` only, so the output has one dimension and 3 elements, not the shape `(3, 4)` with
12 elements. -/
theorem output_shape_has_one_dimension :
    ∃ op t, IpcToTensorOp.construct 3 0 = Except.ok op ∧
      op._output_shape = [3] ∧
      IpcToTensorOp.Compute op 16 demoMemory zeroOut = Outcome.ok t ∧
      t.shape = [3] ∧ t.shape.length = 1 ∧ NumElements t.shape = 3 :=
  ⟨_, _, rfl, rfl, rfl, rfl, rfl, rfl⟩

/-- C5, the code at size 1 and address 0 with no readable memory: validation reports
success, the constructor succeeds without `FailedPrecondition`, and an invocation runs the
projection, which reads the unreadable record. -/
theorem validation_accepts_unreadable_address :
    input_buffer 16 unmappedMemory 0 0 = none ∧
    IPC2TInitialize 1 0 = true ∧
    ∃ op, IpcToTensorOp.construct 1 0 = Except.ok op ∧
      IpcToTensorOp.Compute op 16 unmappedMemory zeroOut = Outcome.fault :=
  ⟨rfl, rfl, _, rfl, rfl⟩

/-- C6, the code at `2^29` records: the requested element count `2^29 * 4` exceeds
`kint32max`, yet the constructor succeeds and the invocation raises no `InvalidArgument`: it
returns an output into which the projection has written. -/
theorem oversized_output_not_rejected :
    kint32max < 536870912 * 4 ∧
    ∃ op t, IpcToTensorOp.construct 536870912 0 = Except.ok op ∧
      NumElements op._output_shape = 536870912 ∧
      IpcToTensorOp.Compute op 16 onesMemory zeroOut = Outcome.ok t ∧
      t.data (4 * 536870911 + 3) = 1 ∧ zeroOut (4 * 536870911 + 3) = 0 := by
  refine ⟨by decide, ?_⟩
  obtain ⟨out, h, hv⟩ := projection_value_exists
  exact ⟨{ _input_size := 536870912, _input_address := 0, _output_shape := [536870912] },
    { shape := [536870912], data := out }, rfl, rfl,
    Compute_ok _ 16 onesMemory zeroOut out (by decide) h, hv, rfl⟩

/-! ## The task lock: one call -/

theorem exec_append (c : Config) (es1 es2 : List Event) :
    exec c (es1 ++ es2) = exec (exec c es1) es2 := by
  simp [exec, List.foldl_append]

theorem exec_snoc (c : Config) (es : List Event) (e : Event) :
    exec c (es ++ [e]) = (exec c es).step e := by
  simp [exec, List.foldl_append]

/-- An event keeps a call among its positions. -/
theorem callPc_step (s e : Int) (c : Config) (h : callPc s e c.pc) (ev : Event) :
    callPc s e (c.step ev).pc := by
  obtain ⟨l, pc⟩ := c
  cases ev with
  | env v => exact h
  | self sp =>
    rcases h with ⟨h, rfl, rfl⟩ | h | ⟨x, h⟩ | h <;> simp only at h <;> subst h
    · right; left; rfl
    · by_cases hc : l = s ∧ sp = false
      · right; right; right
        simp [Config.step, stepThread, compare_exchange_weak, hc]
      · right; right; left
        exact ⟨l, by simp [Config.step, stepThread, compare_exchange_weak, hc]⟩
    · right; left; rfl
    · right; right; right; rfl

theorem callPc_exec (s e : Int) (c : Config) (h : callPc s e c.pc) (es : List Event) :
    callPc s e (exec c es).pc := by
  induction es using List.reverseRecOn with
  | nil => exact h
  | append_singleton es ev ih => rw [exec_snoc]; exact callPc_step s e _ ih ev

/-- What a step of its own does to a call that has not returned: the store of `await()`, a
step that leaves the latch alone and does not return, or the compare-and-swap that finds the
latch at `s`, puts `e` and returns. -/
theorem callPc_own_step (s e : Int) (c : Config) (h : callPc s e c.pc)
    (hnr : c.pc ≠ Pc.returned) (sp : Bool) :
    (c.pc = Pc.awaitStore ∧ c.step (Event.self sp) = { latch := 1, pc := Pc.changeCas 3 0 3 }) ∨
    (c.pc ≠ Pc.awaitStore ∧ (c.step (Event.self sp)).latch = c.latch ∧
      (c.step (Event.self sp)).pc ≠ Pc.returned ∧ (c.latch ≠ s ∨ sp = true ∨
        ∃ x, c.pc = Pc.changeReset s e x)) ∨
    (c.pc = Pc.changeCas s e s ∧ c.latch = s ∧ sp = false ∧
      c.step (Event.self sp) = { latch := e, pc := Pc.returned }) := by
  obtain ⟨l, pc⟩ := c
  rcases h with ⟨h, rfl, rfl⟩ | h | ⟨x, h⟩ | h <;> simp only at h <;> subst h
  · left; exact ⟨rfl, rfl⟩
  · by_cases hc : l = s ∧ sp = false
    · right; right
      simp [Config.step, stepThread, compare_exchange_weak, hc]
    · right; left
      have hc2 : l ≠ s ∨ sp = true := by
        by_cases hl : l = s
        · right; cases sp <;> simp_all
        · left; exact hl
      refine ⟨by simp, ?_, ?_, ?_⟩
      · simp [Config.step, stepThread, compare_exchange_weak, hc]
      · simp [Config.step, stepThread, compare_exchange_weak, hc]
      · rcases hc2 with h1 | h1
        · exact Or.inl h1
        · exact Or.inr (Or.inl h1)
  · right; left
    exact ⟨by simp, rfl, by simp [Config.step, stepThread], Or.inr (Or.inr ⟨x, rfl⟩)⟩
  · exact absurd rfl hnr

/-- A call that has returned has, at some point of the schedule, taken the compare-and-swap
that found the latch at `s` and put `e`. -/
theorem callPc_returned (s e : Int) (c0 : Config) (h0 : callPc s e c0.pc)
    (hnr : c0.pc ≠ Pc.returned) (es : List Event) (hret : (exec c0 es).pc = Pc.returned) :
    ∃ es1 sp es2, es = es1 ++ Event.self sp :: es2 ∧
      exec c0 es1 = { latch := s, pc := Pc.changeCas s e s } ∧
      exec c0 (es1 ++ [Event.self sp]) = { latch := e, pc := Pc.returned } := by
  induction es using List.reverseRecOn with
  | nil => exact absurd hret hnr
  | append_singleton es ev ih =>
    rw [exec_snoc] at hret
    by_cases hprev : (exec c0 es).pc = Pc.returned
    · obtain ⟨es1, sp, es2, he, h1, h2⟩ := ih hprev
      exact ⟨es1, sp, es2 ++ [ev], by rw [he]; simp, h1, h2⟩
    · cases ev with
      | env v => exact absurd hret hprev
      | self sp =>
        rcases callPc_own_step s e _ (callPc_exec s e c0 h0 es) hprev sp with
          ⟨_, h2⟩ | ⟨_, _, h3, _⟩ | ⟨h1, h2, _, h4⟩
        · rw [h2] at hret; simp at hret
        · exact absurd hret h3
        · refine ⟨es, sp, [], rfl, ?_, by rw [exec_snoc]; exact h4⟩
          cases hc : exec c0 es with
          | mk l pc =>
            rw [hc] at h1 h2
            simp only at h1 h2
            rw [h1, h2]

/-- A call that has taken no step of its own is where it was entered. -/
theorem exec_env_only (c : Config) (es : List Event)
    (h : ∀ ev ∈ es, ∃ v, ev = Event.env v) : (exec c es).pc = c.pc := by
  induction es using List.reverseRecOn with
  | nil => rfl
  | append_singleton es ev ih =>
    rw [exec_snoc]
    obtain ⟨v, rfl⟩ := h ev (by simp)
    exact ih (fun e he => h e (by simp [he]))

/-- C9: in a call of `await()` entered at any latch value and run under any schedule of own
steps and foreign writes: as long as the call has taken no step it is at the store, and its
step there puts 1 whatever the latch holds; every later step before the return either leaves
the latch alone without returning or is the compare-and-swap that finds 3, puts 0 and
returns; that compare-and-swap does succeed when it finds 3 and does not fail spuriously; a
call that has returned has taken such a step (latch 3 just before it, 0 just after it); and a
call during which the latch was never 3 has not returned. -/
theorem await_contract (l0 : Int) (es : List Event) (spurious : Bool) :
    ((∀ ev ∈ es, ∃ v, ev = Event.env v) → (awaitCall l0 es).pc = Pc.awaitStore) ∧
    ((awaitCall l0 es).pc = Pc.awaitStore →
      (awaitCall l0 es).step (Event.self spurious) =
        { latch := 1, pc := Pc.changeCas 3 0 3 }) ∧
    ((awaitCall l0 es).pc ≠ Pc.awaitStore → (awaitCall l0 es).pc ≠ Pc.returned →
      (((awaitCall l0 es).step (Event.self spurious)).latch = (awaitCall l0 es).latch ∧
        ((awaitCall l0 es).step (Event.self spurious)).pc ≠ Pc.returned) ∨
      ((awaitCall l0 es).pc = Pc.changeCas 3 0 3 ∧ (awaitCall l0 es).latch = 3 ∧
        (awaitCall l0 es).step (Event.self spurious) = { latch := 0, pc := Pc.returned })) ∧
    ((awaitCall l0 es).pc = Pc.changeCas 3 0 3 → (awaitCall l0 es).latch = 3 →
      (awaitCall l0 es).step (Event.self false) = { latch := 0, pc := Pc.returned }) ∧
    ((awaitCall l0 es).pc = Pc.returned →
      ∃ es1 sp es2, es = es1 ++ Event.self sp :: es2 ∧
        awaitCall l0 es1 = { latch := 3, pc := Pc.changeCas 3 0 3 } ∧
        awaitCall l0 (es1 ++ [Event.self sp]) = { latch := 0, pc := Pc.returned }) ∧
    ((∀ es1 ev es2, es = es1 ++ ev :: es2 → (awaitCall l0 es1).latch ≠ 3) →
      (awaitCall l0 es).pc ≠ Pc.returned) := by
  have h0 : callPc 3 0 ({ latch := l0, pc := IPCTaskLock.await } : Config).pc :=
    Or.inl ⟨rfl, rfl, rfl⟩
  have hinv : callPc 3 0 (awaitCall l0 es).pc := callPc_exec 3 0 _ h0 es
  have hret : (awaitCall l0 es).pc = Pc.returned →
      ∃ es1 sp es2, es = es1 ++ Event.self sp :: es2 ∧
        awaitCall l0 es1 = { latch := 3, pc := Pc.changeCas 3 0 3 } ∧
        awaitCall l0 (es1 ++ [Event.self sp]) = { latch := 0, pc := Pc.returned } :=
    fun h => callPc_returned 3 0 _ h0 (by simp [IPCTaskLock.await]) es h
  refine ⟨fun h => exec_env_only _ es h, ?_, ?_, ?_, hret, ?_⟩
  · intro hpc
    rcases callPc_own_step 3 0 _ hinv (by rw [hpc]; simp) spurious with
      ⟨_, h2⟩ | ⟨h1, _⟩ | ⟨h1, _⟩
    · exact h2
    · exact absurd hpc h1
    · rw [hpc] at h1; simp at h1
  · intro hpc hnr
    rcases callPc_own_step 3 0 _ hinv hnr spurious with
      ⟨h1, _⟩ | ⟨_, h2, h3, _⟩ | ⟨h1, h2, _, h4⟩
    · exact absurd h1 hpc
    · exact Or.inl ⟨h2, h3⟩
    · exact Or.inr ⟨h1, h2, h4⟩
  · intro hpc hl
    rcases callPc_own_step 3 0 _ hinv (by rw [hpc]; simp) false with
      ⟨h1, _⟩ | ⟨_, _, _, h4⟩ | ⟨_, _, _, h4⟩
    · rw [hpc] at h1; simp at h1
    · rcases h4 with h4 | h4 | ⟨x, h4⟩
      · exact absurd hl h4
      · simp at h4
      · rw [hpc] at h4; simp at h4
    · exact h4
  · intro hnever hpc
    obtain ⟨es1, sp, es2, he, h1, _⟩ := hret hpc
    exact hnever es1 (Event.self sp) es2 he (by rw [h1])

/-- C9 on a schedule: the call is entered at latch 7, stores 1 over a foreign 2, fails at
latch 1, fails spuriously at 3, and then replaces 3 by 0 and returns. -/
theorem await_contract_witness :
    (awaitCall 7 awaitSchedule).pc = Pc.returned ∧
    ∃ es1 sp es2, awaitSchedule = es1 ++ Event.self sp :: es2 ∧
      awaitCall 7 es1 = { latch := 3, pc := Pc.changeCas 3 0 3 } ∧
      awaitCall 7 (es1 ++ [Event.self sp]) = { latch := 0, pc := Pc.returned } :=
  ⟨by decide, (await_contract 7 awaitSchedule false).2.2.2.2.1 (by decide)⟩

/-- C10: in a call of `start()` entered at any latch value and run under any schedule of own
steps and foreign writes: a step of the call taken while the latch is not 1 leaves the latch
as it is and does not return; every step before the return either leaves the latch alone
without returning or is the compare-and-swap that finds 1, puts 2 and returns; that
compare-and-swap does succeed when it finds 1 and does not fail spuriously; and a call that
has returned has taken such a step (latch 1 just before it, 2 just after it). -/
theorem start_contract (l0 : Int) (es : List Event) (spurious : Bool) :
    ((startCall l0 es).latch ≠ 1 →
      ((startCall l0 es).step (Event.self spurious)).latch = (startCall l0 es).latch ∧
      ((startCall l0 es).pc ≠ Pc.returned →
        ((startCall l0 es).step (Event.self spurious)).pc ≠ Pc.returned)) ∧
    ((startCall l0 es).pc ≠ Pc.returned →
      (((startCall l0 es).step (Event.self spurious)).latch = (startCall l0 es).latch ∧
        ((startCall l0 es).step (Event.self spurious)).pc ≠ Pc.returned) ∨
      ((startCall l0 es).pc = Pc.changeCas 1 2 1 ∧ (startCall l0 es).latch = 1 ∧
        (startCall l0 es).step (Event.self spurious) = { latch := 2, pc := Pc.returned })) ∧
    ((startCall l0 es).pc = Pc.changeCas 1 2 1 → (startCall l0 es).latch = 1 →
      (startCall l0 es).step (Event.self false) = { latch := 2, pc := Pc.returned }) ∧
    ((startCall l0 es).pc = Pc.returned →
      ∃ es1 sp es2, es = es1 ++ Event.self sp :: es2 ∧
        startCall l0 es1 = { latch := 1, pc := Pc.changeCas 1 2 1 } ∧
        startCall l0 (es1 ++ [Event.self sp]) = { latch := 2, pc := Pc.returned }) := by
  have h0 : callPc 1 2 ({ latch := l0, pc := IPCTaskLock.start } : Config).pc :=
    Or.inr (Or.inl rfl)
  have hinv : callPc 1 2 (startCall l0 es).pc := callPc_exec 1 2 _ h0 es
  have hns : (startCall l0 es).pc ≠ Pc.awaitStore := by
    rcases hinv with ⟨_, h, _⟩ | h | ⟨x, h⟩ | h
    · simp at h
    · rw [h]; simp
    · rw [h]; simp
    · rw [h]; simp
  refine ⟨?_, ?_, ?_, fun h => callPc_returned 1 2 _ h0
    (by simp [IPCTaskLock.start, IPCTaskLock._change_state]) es h⟩
  · intro hl
    by_cases hnr : (startCall l0 es).pc = Pc.returned
    · refine ⟨?_, fun h => absurd hnr h⟩
      cases hc : startCall l0 es with
      | mk l pc =>
        rw [hc] at hnr
        simp only at hnr
        subst hnr
        rfl
    · rcases callPc_own_step 1 2 _ hinv hnr spurious with
        ⟨h1, _⟩ | ⟨_, h2, h3, _⟩ | ⟨_, h2, _⟩
      · exact absurd h1 hns
      · exact ⟨h2, fun _ => h3⟩
      · exact absurd h2 hl
  · intro hnr
    rcases callPc_own_step 1 2 _ hinv hnr spurious with
      ⟨h1, _⟩ | ⟨_, h2, h3, _⟩ | ⟨h1, h2, _, h4⟩
    · exact absurd h1 hns
    · exact Or.inl ⟨h2, h3⟩
    · exact Or.inr ⟨h1, h2, h4⟩
  · intro hpc hl
    rcases callPc_own_step 1 2 _ hinv (by rw [hpc]; simp) false with
      ⟨h1, _⟩ | ⟨_, _, _, h4⟩ | ⟨_, _, _, h4⟩
    · rw [hpc] at h1; simp at h1
    · rcases h4 with h4 | h4 | ⟨x, h4⟩
      · exact absurd hl h4
      · simp at h4
      · rw [hpc] at h4; simp at h4
    · exact h4

/-- C10 on a schedule: the call is entered at latch 0, fails while the latch is not 1, fails
spuriously at 1, and then replaces 1 by 2 and returns. -/
theorem start_contract_witness :
    (startCall 0 startSchedule).pc = Pc.returned ∧
    ∃ es1 sp es2, startSchedule = es1 ++ Event.self sp :: es2 ∧
      startCall 0 es1 = { latch := 1, pc := Pc.changeCas 1 2 1 } ∧
      startCall 0 (es1 ++ [Event.self sp]) = { latch := 2, pc := Pc.returned } :=
  ⟨by decide, (start_contract 0 startSchedule false).2.2.2 (by decide)⟩

/-! ## The task lock: the two-party protocol -/

theorem run_snoc (s : Sys) (acts : List Action) (a : Action) :
    Sys.run s (acts ++ [a]) = (Sys.run s acts).step a := by
  simp [Sys.run, List.foldl_append]

theorem inv_init : Sys.Inv Sys.init :=
  Or.inl ⟨rfl, Or.inl rfl, Or.inl rfl⟩

/-- A step keeps the invariant, and leaves the latch alone or moves it along the cycle. -/
theorem inv_step (s : Sys) (h : Sys.Inv s) (a : Action) :
    Sys.Inv (s.step a) ∧ ((s.step a).latch = s.latch ∨ cycleChange s.latch (s.step a).latch) := by
  obtain ⟨l, m, w⟩ := s
  simp only [Sys.Inv, masterOutside, masterSpinning, workerWaiting, workerInside] at h
  rcases h with ⟨hl, hm, hw⟩ | ⟨hl, hm, hw⟩ | ⟨hl, hm, hw⟩ | ⟨hl, hm, hw⟩ <;>
    subst hl
  · rcases hm with rfl | rfl <;> rcases hw with rfl | rfl | ⟨x, rfl⟩ <;>
      rcases a with sp | sp <;> cases sp <;>
      simp [Sys.Inv, masterOutside, masterSpinning, workerWaiting, workerInside, cycleChange,
        Sys.step, masterStep, workerStep, stepThread, compare_exchange_weak, atomic_store,
        IPCTaskLock._store, IPCTaskLock.await, IPCTaskLock.start, IPCTaskLock.end_,
        IPCTaskLock._change_state]
  · rcases hm with rfl | ⟨y, rfl⟩ <;> rcases hw with rfl | rfl | ⟨x, rfl⟩ <;>
      rcases a with sp | sp <;> cases sp <;>
      simp [Sys.Inv, masterOutside, masterSpinning, workerWaiting, workerInside, cycleChange,
        Sys.step, masterStep, workerStep, stepThread, compare_exchange_weak, atomic_store,
        IPCTaskLock._store, IPCTaskLock.await, IPCTaskLock.start, IPCTaskLock.end_,
        IPCTaskLock._change_state]
  · rcases hm with rfl | ⟨y, rfl⟩ <;> rcases hw with rfl | rfl <;>
      rcases a with sp | sp <;> cases sp <;>
      simp [Sys.Inv, masterOutside, masterSpinning, workerWaiting, workerInside, cycleChange,
        Sys.step, masterStep, workerStep, stepThread, compare_exchange_weak, atomic_store,
        IPCTaskLock._store, IPCTaskLock.await, IPCTaskLock.start, IPCTaskLock.end_,
        IPCTaskLock._change_state]
  · rcases hm with rfl | ⟨y, rfl⟩ <;> rcases hw with rfl | rfl | ⟨x, rfl⟩ <;>
      rcases a with sp | sp <;> cases sp <;>
      simp [Sys.Inv, masterOutside, masterSpinning, workerWaiting, workerInside, cycleChange,
        Sys.step, masterStep, workerStep, stepThread, compare_exchange_weak, atomic_store,
        IPCTaskLock._store, IPCTaskLock.await, IPCTaskLock.start, IPCTaskLock.end_,
        IPCTaskLock._change_state]

/-- Every state reached from the initial one satisfies the invariant. -/
theorem inv_run (acts : List Action) : Sys.Inv (Sys.run Sys.init acts) := by
  induction acts using List.reverseRecOn with
  | nil => exact inv_init
  | append_singleton acts a ih => rw [run_snoc]; exact (inv_step _ ih a).1

theorem latchTrace_head (s : Sys) (acts : List Action) :
    ∃ rest, Sys.latchTrace s acts = s.latch :: rest := by
  cases acts with
  | nil => exact ⟨[], rfl⟩
  | cons a acts => exact ⟨_, rfl⟩

/-- From a state of the invariant, the observed values count up modulo 4. -/
theorem observed_latchTrace (acts : List Action) :
    ∀ s : Sys, Sys.Inv s →
      observed (Sys.latchTrace s acts) =
        (List.range (observed (Sys.latchTrace s acts)).length).map
          (fun k : Nat => (s.latch + (k : Int)) % 4) := by
  induction acts with
  | nil =>
    intro s h
    have hl : s.latch % 4 = s.latch := by
      rcases h with ⟨h, _⟩ | ⟨h, _⟩ | ⟨h, _⟩ | ⟨h, _⟩ <;> rw [h] <;> rfl
    simp [Sys.latchTrace, observed, hl, List.range_succ]
  | cons a acts ih =>
    intro s h
    have hl : s.latch % 4 = s.latch := by
      rcases h with ⟨h, _⟩ | ⟨h, _⟩ | ⟨h, _⟩ | ⟨h, _⟩ <;> rw [h] <;> rfl
    obtain ⟨hinv, hstep⟩ := inv_step s h a
    have ih1 := ih (s.step a) hinv
    obtain ⟨rest, hrest⟩ := latchTrace_head (s.step a) acts
    rw [Sys.latchTrace, hrest]
    rw [hrest] at ih1
    rcases hstep with heq | hcyc
    · rw [observed, if_pos heq.symm, ← heq]
      exact ih1
    · have hne : s.latch ≠ (s.step a).latch := by
        rcases hcyc with ⟨h1, h2⟩ | ⟨h1, h2⟩ | ⟨h1, h2⟩ | ⟨h1, h2⟩ <;> rw [h1, h2] <;> decide
      have hnext : ∀ k : Nat, ((s.step a).latch + (k : Int)) % 4 =
          (s.latch + ((k + 1 : Nat) : Int)) % 4 := by
        intro k
        rcases hcyc with ⟨h1, h2⟩ | ⟨h1, h2⟩ | ⟨h1, h2⟩ | ⟨h1, h2⟩ <;> rw [h1, h2] <;>
          push_cast <;> omega
      rw [observed, if_neg hne]
      generalize observed ((s.step a).latch :: rest) = O at ih1 ⊢
      rw [List.length_cons, List.range_succ_eq_map, List.map_cons, List.map_map]
      simp only [Int.Nat.cast_ofNat_Int, add_zero, hl, Function.comp_def, Nat.succ_eq_add_one]
      rw [List.cons_inj_right]
      conv_lhs => rw [ih1]
      exact List.map_congr_left (fun k _ => hnext k)

/-- C2: in the two-party protocol started with the latch at 0, after every interleaving the
latch is one of 0, 1, 2, 3, and every further step of either party leaves the latch as it is
or changes it by one of 0 → 1, 1 → 2, 2 → 3, 3 → 0; the values observed along the
interleaving, repetitions dropped, are 0, 1, 2, 3, 0, 1, ... (the `k`-th is `k mod 4`); the
interleaving `roundSchedule` goes once round the cycle. -/
theorem state_cycle (acts : List Action) (a : Action) :
    ((Sys.run Sys.init acts).latch = 0 ∨ (Sys.run Sys.init acts).latch = 1 ∨
      (Sys.run Sys.init acts).latch = 2 ∨ (Sys.run Sys.init acts).latch = 3) ∧
    (((Sys.run Sys.init acts).step a).latch = (Sys.run Sys.init acts).latch ∨
      ((Sys.run Sys.init acts).latch = 0 ∧ ((Sys.run Sys.init acts).step a).latch = 1) ∨
      ((Sys.run Sys.init acts).latch = 1 ∧ ((Sys.run Sys.init acts).step a).latch = 2) ∨
      ((Sys.run Sys.init acts).latch = 2 ∧ ((Sys.run Sys.init acts).step a).latch = 3) ∨
      ((Sys.run Sys.init acts).latch = 3 ∧ ((Sys.run Sys.init acts).step a).latch = 0)) ∧
    observed (Sys.latchTrace Sys.init acts) =
      (List.range (observed (Sys.latchTrace Sys.init acts)).length).map
        (fun k : Nat => ((k % 4 : Nat) : Int)) ∧
    Sys.latchTrace Sys.init roundSchedule = [0, 0, 0, 1, 1, 2, 2, 3, 3, 3, 0] ∧
    observed (Sys.latchTrace Sys.init roundSchedule) = [0, 1, 2, 3, 0] := by
  refine ⟨?_, (inv_step _ (inv_run acts) a).2, ?_, by decide, by decide⟩
  · rcases inv_run acts with ⟨h, _⟩ | ⟨h, _⟩ | ⟨h, _⟩ | ⟨h, _⟩
    · exact Or.inl h
    · exact Or.inr (Or.inl h)
    · exact Or.inr (Or.inr (Or.inl h))
    · exact Or.inr (Or.inr (Or.inr h))
  · have h := observed_latchTrace acts Sys.init inv_init
    have e : ∀ k : Nat, (Sys.init.latch + (k : Int)) % 4 = ((k % 4 : Nat) : Int) := by
      intro k
      show ((0 : Int) + (k : Int)) % 4 = ((k % 4 : Nat) : Int)
      push_cast; omega
    simpa only [e] using h

/-- C3: in the two-party protocol started with the latch at 0, after no interleaving is the
master outside `await()` while the worker is between the return of `start()` and its call of
`end()`; each of the two does own the buffer at some point of `roundSchedule`. -/
theorem mutual_exclusion (acts : List Action) :
    ¬ (masterOwns (Sys.run Sys.init acts) = true ∧ workerOwns (Sys.run Sys.init acts) = true) ∧
    masterOwns (Sys.run Sys.init roundSchedule) = true ∧
    workerOwns (Sys.run Sys.init (roundSchedule.take 5)) = true := by
  refine ⟨?_, by decide, by decide⟩
  rintro ⟨hm, hw⟩
  have hinv := inv_run acts
  cases hs : Sys.run Sys.init acts with
  | mk l m w =>
    rw [hs] at hm hw hinv
    simp only [Sys.Inv, masterOutside, masterSpinning, workerWaiting, workerInside] at hinv
    cases m with
    | inAwait pc => simp [masterOwns] at hm
    | own =>
      cases w with
      | own =>
        rcases hinv with ⟨_, _, hw2⟩ | ⟨_, hm2, _⟩ | ⟨_, hm2, _⟩ | ⟨_, hm2, _⟩
        · simp at hw2
        · simp at hm2
        · simp at hm2
        · simp at hm2
      | idle => simp [workerOwns] at hw
      | inStart pc => simp [workerOwns] at hw
      | inEnd pc => simp [workerOwns] at hw

/-! ## The task lock: `end()` and `_change_state` -/

/-- A call of `end()` is at its store as long as it has taken no step, and has returned as
soon as it has taken one. -/
theorem endCall_pc (l0 : Int) (es : List Event) :
    ((endCall l0 es).pc = Pc.endStore ∧ ∀ ev ∈ es, ∃ v, ev = Event.env v) ∨
    ((endCall l0 es).pc = Pc.returned ∧ ∃ sp, Event.self sp ∈ es) := by
  induction es using List.reverseRecOn with
  | nil => exact Or.inl ⟨rfl, by simp⟩
  | append_singleton es ev ih =>
    unfold endCall at ih ⊢
    rw [exec_snoc]
    cases ev with
    | env v =>
      rcases ih with ⟨h1, h2⟩ | ⟨h1, sp, h2⟩
      · left
        refine ⟨h1, ?_⟩
        intro e he
        rcases List.mem_append.mp he with h | h
        · exact h2 e h
        · exact ⟨v, by simpa using h⟩
      · right; exact ⟨h1, sp, by simp [h2]⟩
    | self sp =>
      right
      refine ⟨?_, sp, by simp⟩
      rcases ih with ⟨h1, _⟩ | ⟨h1, _⟩ <;> simp [Config.step, stepThread, h1]

/-- C11, as stated, fails: a caller in phase 0 (the master running) whose call of `end()`
takes its step leaves the latch at 3, while the ceding counterpart of phase 0 is 1. -/
theorem end_ignores_phase_of_caller :
    cedingCounterpart 0 = some 1 ∧
    endCall 0 [Event.self false] = { latch := 3, pc := Pc.returned } :=
  ⟨rfl, rfl⟩

/-- C11, amended: a call of `end()` entered at any latch value and run under any schedule is
at its store or has returned (no compare-and-swap, no waiting); as long as it has taken no
step it is at the store, and its step there puts 3, whatever the latch holds, and returns;
once it has taken a step it has returned and further steps change nothing; for the consumer
(latch 2, whose ceding counterpart is 3) the latch is 3 after the call. -/
theorem end_contract (l0 : Int) (es : List Event) (spurious : Bool) :
    ((endCall l0 es).pc = Pc.endStore ∨ (endCall l0 es).pc = Pc.returned) ∧
    ((∀ ev ∈ es, ∃ v, ev = Event.env v) →
      (endCall l0 es).pc = Pc.endStore ∧
      (endCall l0 es).step (Event.self spurious) = { latch := 3, pc := Pc.returned }) ∧
    ((∃ sp, Event.self sp ∈ es) →
      (endCall l0 es).pc = Pc.returned ∧
      (endCall l0 es).step (Event.self spurious) = endCall l0 es) ∧
    endCall l0 [Event.self spurious] = { latch := 3, pc := Pc.returned } ∧
    cedingCounterpart 2 = some 3 ∧
    endCall 2 [Event.self spurious] = { latch := 3, pc := Pc.returned } := by
  refine ⟨?_, ?_, ?_, rfl, rfl, rfl⟩
  · rcases endCall_pc l0 es with ⟨h, _⟩ | ⟨h, _⟩
    · exact Or.inl h
    · exact Or.inr h
  · intro h
    have hpc : (endCall l0 es).pc = Pc.endStore := exec_env_only _ es h
    refine ⟨hpc, ?_⟩
    cases hc : endCall l0 es with
    | mk l pc =>
      rw [hc] at hpc
      simp only at hpc
      subst hpc
      rfl
  · rintro ⟨sp, hsp⟩
    have hpc : (endCall l0 es).pc = Pc.returned := by
      rcases endCall_pc l0 es with ⟨_, h⟩ | ⟨h, _⟩
      · obtain ⟨v, hv⟩ := h _ hsp
        cases hv
      · exact h
    refine ⟨hpc, ?_⟩
    cases hc : endCall l0 es with
    | mk l pc =>
      rw [hc] at hpc
      simp only at hpc
      subst hpc
      rfl

/-- C11, amended, on a schedule: foreign writes of 2 and 0, then the step of the call, then a
foreign write of 1 and a further step. -/
theorem end_contract_witness :
    (∃ sp, Event.self sp ∈ [Event.env 2, Event.env 0, Event.self false, Event.env 1]) ∧
    (endCall 7 [Event.env 2, Event.env 0, Event.self false, Event.env 1]).pc = Pc.returned ∧
    (endCall 7 [Event.env 2, Event.env 0, Event.self false, Event.env 1]).step
        (Event.self false) =
      endCall 7 [Event.env 2, Event.env 0, Event.self false, Event.env 1] :=
  ⟨⟨false, by decide⟩,
    (end_contract 7 [Event.env 2, Event.env 0, Event.self false, Event.env 1] false).2.2.1
      ⟨false, by decide⟩⟩

/-- A step keeps a call of `_change_state(s, e)` among its positions. -/
theorem spinPc_exec (s e : Int) (c : Config) (h : spinPc s e c.pc) (es : List Event) :
    spinPc s e (exec c es).pc := by
  induction es using List.reverseRecOn with
  | nil => exact h
  | append_singleton es ev ih =>
    rw [exec_snoc]
    cases hc : exec c es with
    | mk l pc =>
      rw [hc] at ih
      simp only at ih
      cases ev with
      | env v => exact ih
      | self sp =>
        rcases ih with h | ⟨x, h⟩ | h <;> subst h
        · by_cases hcas : l = s ∧ sp = false
          · right; right
            simp [Config.step, stepThread, compare_exchange_weak, hcas]
          · right; left
            exact ⟨l, by simp [Config.step, stepThread, compare_exchange_weak, hcas]⟩
        · left; rfl
        · right; right; rfl

theorem spinPc_callPc (s e : Int) (pc : Pc) (h : spinPc s e pc) : callPc s e pc :=
  Or.inr h

/-- C17: in a call of `_change_state(s, e)` entered at any latch value and run under any
schedule of own steps and foreign writes: every compare-and-swap is attempted with
`expected = s`; an attempt that fails (the latch differs from `s`, or the weak exchange fails
spuriously) leaves the latch as it is and `expected` at the observed value, and the next
step resets `expected` to `s`; an attempt made while the latch differs from `s` does not
return; every step before the return either leaves the latch alone without returning or is
the attempt that finds `s`, puts `e` and returns; that attempt does succeed when it finds `s`
and does not fail spuriously; after the return no step writes; and a call that has returned
has taken the attempt that replaced `s` by `e`. -/
theorem change_state_contract (s e l0 : Int) (es : List Event) (spurious : Bool) :
    (∀ s1 e1 x, (changeStateCall s e l0 es).pc = Pc.changeCas s1 e1 x →
      s1 = s ∧ e1 = e ∧ x = s) ∧
    ((changeStateCall s e l0 es).pc = Pc.changeCas s e s →
      ((changeStateCall s e l0 es).latch ≠ s ∨ spurious = true) →
      (changeStateCall s e l0 es).step (Event.self spurious) =
        { latch := (changeStateCall s e l0 es).latch,
          pc := Pc.changeReset s e (changeStateCall s e l0 es).latch }) ∧
    (∀ s1 e1 x, (changeStateCall s e l0 es).pc = Pc.changeReset s1 e1 x →
      s1 = s ∧ e1 = e ∧
      (changeStateCall s e l0 es).step (Event.self spurious) =
        { latch := (changeStateCall s e l0 es).latch, pc := Pc.changeCas s e s }) ∧
    ((changeStateCall s e l0 es).pc ≠ Pc.returned → (changeStateCall s e l0 es).latch ≠ s →
      ((changeStateCall s e l0 es).step (Event.self spurious)).latch =
        (changeStateCall s e l0 es).latch ∧
      ((changeStateCall s e l0 es).step (Event.self spurious)).pc ≠ Pc.returned) ∧
    ((changeStateCall s e l0 es).pc ≠ Pc.returned →
      (((changeStateCall s e l0 es).step (Event.self spurious)).latch =
          (changeStateCall s e l0 es).latch ∧
        ((changeStateCall s e l0 es).step (Event.self spurious)).pc ≠ Pc.returned) ∨
      ((changeStateCall s e l0 es).pc = Pc.changeCas s e s ∧
        (changeStateCall s e l0 es).latch = s ∧
        (changeStateCall s e l0 es).step (Event.self spurious) =
          { latch := e, pc := Pc.returned })) ∧
    ((changeStateCall s e l0 es).pc = Pc.changeCas s e s →
      (changeStateCall s e l0 es).latch = s →
      (changeStateCall s e l0 es).step (Event.self false) =
        { latch := e, pc := Pc.returned }) ∧
    ((changeStateCall s e l0 es).pc = Pc.returned →
      (changeStateCall s e l0 es).step (Event.self spurious) = changeStateCall s e l0 es) ∧
    ((changeStateCall s e l0 es).pc = Pc.returned →
      ∃ es1 sp es2, es = es1 ++ Event.self sp :: es2 ∧
        changeStateCall s e l0 es1 = { latch := s, pc := Pc.changeCas s e s } ∧
        changeStateCall s e l0 (es1 ++ [Event.self sp]) =
          { latch := e, pc := Pc.returned }) := by
  have h0 : spinPc s e ({ latch := l0, pc := IPCTaskLock._change_state s e } : Config).pc :=
    Or.inl rfl
  have hinv : spinPc s e (changeStateCall s e l0 es).pc := spinPc_exec s e _ h0 es
  have hret := callPc_returned s e _ (spinPc_callPc s e _ h0)
    (by simp [IPCTaskLock._change_state]) es
  have hown := callPc_own_step s e (changeStateCall s e l0 es) (spinPc_callPc s e _ hinv)
  unfold changeStateCall at hinv hown ⊢
  cases hc : exec { latch := l0, pc := IPCTaskLock._change_state s e } es with
  | mk l pc =>
    rw [hc] at hinv hown hret
    simp only at hinv hown hret
    refine ⟨?_, ?_, ?_, ?_, ?_, ?_, ?_, hret⟩
    · intro s1 e1 x hpc
      subst hpc
      rcases hinv with h | ⟨y, h⟩ | h
      · simp only [Pc.changeCas.injEq] at h
        exact h
      · simp at h
      · simp at h
    · intro hpc hfail
      subst hpc
      have hcas : ¬ (l = s ∧ spurious = false) := by
        rintro ⟨h1, h2⟩
        rcases hfail with h | h
        · exact h h1
        · rw [h2] at h; simp at h
      simp [Config.step, stepThread, compare_exchange_weak, hcas]
    · intro s1 e1 x hpc
      subst hpc
      rcases hinv with h | ⟨y, h⟩ | h
      · simp at h
      · simp only [Pc.changeReset.injEq] at h
        obtain ⟨rfl, rfl, _⟩ := h
        exact ⟨rfl, rfl, rfl⟩
      · simp at h
    · intro hnr hl
      rcases hown hnr spurious with ⟨h1, _⟩ | ⟨_, h2, h3, _⟩ | ⟨_, h2, _⟩
      · subst h1
        rcases hinv with h | ⟨y, h⟩ | h <;> simp at h
      · exact ⟨h2, h3⟩
      · exact absurd h2 hl
    · intro hnr
      rcases hown hnr spurious with ⟨h1, _⟩ | ⟨_, h2, h3, _⟩ | ⟨h1, h2, _, h4⟩
      · subst h1
        rcases hinv with h | ⟨y, h⟩ | h <;> simp at h
      · exact Or.inl ⟨h2, h3⟩
      · exact Or.inr ⟨h1, h2, h4⟩
    · intro hpc hl
      subst hpc
      simp only at hl
      simp [Config.step, stepThread, compare_exchange_weak, hl]
    · intro hpc
      subst hpc
      rfl

/-- C17 on a schedule: the call `_change_state(5, 9)` is entered at latch 0, fails there,
resets, fails spuriously at 5, resets, and then replaces 5 by 9 and returns. -/
theorem change_state_contract_witness :
    (changeStateCall 5 9 0 changeSchedule).pc = Pc.returned ∧
    ∃ es1 sp es2, changeSchedule = es1 ++ Event.self sp :: es2 ∧
      changeStateCall 5 9 0 es1 = { latch := 5, pc := Pc.changeCas 5 9 5 } ∧
      changeStateCall 5 9 0 (es1 ++ [Event.self sp]) = { latch := 9, pc := Pc.returned } :=
  ⟨by decide, (change_state_contract 5 9 0 changeSchedule false).2.2.2.2.2.2.2 (by decide)⟩

/-! ## Any number of callers: the value range -/

theorem pool_run_snoc (p : Pool) (moves : List Move) (m : Move) :
    Pool.run p (moves ++ [m]) = (Pool.run p moves).step m := by
  simp [Pool.run, List.foldl_append]

theorem methodPc_entry (m : Method) : methodPc m.entry := by
  cases m
  · exact Or.inl rfl
  · exact Or.inr (Or.inr (Or.inr (Or.inr (Or.inr (Or.inl ⟨1, rfl⟩)))))
  · exact Or.inr (Or.inl rfl)

/-- A step of a caller keeps the latch in `0 .. 3` and the caller among its positions. -/
theorem stepThread_range (l : Int) (pc : Pc) (sp : Bool)
    (hl : l = 0 ∨ l = 1 ∨ l = 2 ∨ l = 3) (hpc : methodPc pc) :
    ((stepThread l pc sp).1 = 0 ∨ (stepThread l pc sp).1 = 1 ∨ (stepThread l pc sp).1 = 2 ∨
      (stepThread l pc sp).1 = 3) ∧ methodPc (stepThread l pc sp).2 := by
  rcases hpc with h | h | h | ⟨x, h⟩ | ⟨x, h⟩ | ⟨x, h⟩ | ⟨x, h⟩ <;> subst h
  · exact ⟨Or.inr (Or.inl rfl), Or.inr (Or.inr (Or.inr (Or.inl ⟨3, rfl⟩)))⟩
  · exact ⟨Or.inr (Or.inr (Or.inr rfl)), Or.inr (Or.inr (Or.inl rfl))⟩
  · exact ⟨hl, Or.inr (Or.inr (Or.inl rfl))⟩
  · by_cases hc : l = x ∧ sp = false
    · simp [stepThread, compare_exchange_weak, hc, methodPc]
    · simp only [stepThread, compare_exchange_weak, hc, if_false]
      exact ⟨hl, Or.inr (Or.inr (Or.inr (Or.inr (Or.inl ⟨l, rfl⟩))))⟩
  · exact ⟨hl, Or.inr (Or.inr (Or.inr (Or.inl ⟨3, rfl⟩)))⟩
  · by_cases hc : l = x ∧ sp = false
    · simp [stepThread, compare_exchange_weak, hc, methodPc]
    · simp only [stepThread, compare_exchange_weak, hc, if_false]
      exact ⟨hl, Or.inr (Or.inr (Or.inr (Or.inr (Or.inr (Or.inr ⟨l, rfl⟩)))))⟩
  · exact ⟨hl, Or.inr (Or.inr (Or.inr (Or.inr (Or.inr (Or.inl ⟨1, rfl⟩)))))⟩

theorem pool_inv_step (p : Pool) (h : Pool.Inv p) (m : Move) : Pool.Inv (p.step m) := by
  obtain ⟨hl, hp⟩ := h
  cases m with
  | call caller m =>
    unfold Pool.step
    by_cases hc : p.pcs caller = Pc.returned
    · simp only [hc, if_true]
      refine ⟨hl, fun u => ?_⟩
      by_cases hu : u = caller
      · simp only [setPc, hu, if_true]; exact methodPc_entry m
      · simp only [setPc, hu, if_false]; exact hp u
    · simp only [hc, if_false]; exact ⟨hl, hp⟩
  | step caller sp =>
    obtain ⟨h1, h2⟩ := stepThread_range p.latch (p.pcs caller) sp hl (hp caller)
    refine ⟨h1, fun u => ?_⟩
    by_cases hu : u = caller
    · simp only [Pool.step, setPc, hu, if_true]; exact h2
    · simp only [Pool.step, setPc, hu, if_false]; exact hp u

theorem pool_inv_run (moves : List Move) : Pool.Inv (Pool.run Pool.init moves) := by
  induction moves using List.reverseRecOn with
  | nil => exact ⟨Or.inl rfl, fun _ => Or.inr (Or.inr (Or.inl rfl))⟩
  | append_singleton moves m ih => rw [pool_run_snoc]; exact pool_inv_step _ ih m

/-- C13: a newly constructed latch holds 0, and after every sequence of calls of `await()`,
`start()` and `end()` and of steps inside them, by any number of callers in any order, the
latch is one of 0, 1, 2, 3; the moves `unrulyMoves`, which follow no protocol, take it
through 0, 3, 1, 3, 0. -/
theorem value_range (moves : List Move) :
    IPCTaskLock.new = 0 ∧ Pool.init.latch = 0 ∧
    ((Pool.run Pool.init moves).latch = 0 ∨ (Pool.run Pool.init moves).latch = 1 ∨
      (Pool.run Pool.init moves).latch = 2 ∨ (Pool.run Pool.init moves).latch = 3) ∧
    unrulyMoves.inits.map (fun ms => (Pool.run Pool.init ms).latch) =
      [0, 0, 3, 3, 3, 3, 3, 1, 3, 0] :=
  ⟨rfl, rfl, (pool_inv_run moves).1, by decide⟩

/-! ## Progress and handoff in the two-party protocol -/

/-- In a state of the invariant the two parties are not both stuck, and one of them, not
stuck, changes the latch within two steps of its own. -/
theorem inv_progress (s : Sys) (h : Sys.Inv s) :
    ¬ (masterStuck s = true ∧ workerStuck s = true) ∧
    ((masterStuck s = false ∧
        ((s.step (Action.master false)).step (Action.master false)).latch ≠ s.latch) ∨
      (workerStuck s = false ∧
        ((s.step (Action.worker false)).step (Action.worker false)).latch ≠ s.latch)) := by
  obtain ⟨l, m, w⟩ := s
  simp only [Sys.Inv, masterOutside, masterSpinning, workerWaiting, workerInside] at h
  rcases h with ⟨hl, hm, hw⟩ | ⟨hl, hm, hw⟩ | ⟨hl, hm, hw⟩ | ⟨hl, hm, hw⟩ <;> subst hl
  · rcases hm with rfl | rfl <;> rcases hw with rfl | rfl | ⟨x, rfl⟩ <;>
      simp [masterStuck, workerStuck, cannotSucceed,
        Sys.step, masterStep, workerStep, stepThread, compare_exchange_weak, atomic_store,
        IPCTaskLock._store, IPCTaskLock.await, IPCTaskLock.start, IPCTaskLock.end_,
        IPCTaskLock._change_state]
  · rcases hm with rfl | ⟨y, rfl⟩ <;> rcases hw with rfl | rfl | ⟨x, rfl⟩ <;>
      simp [masterStuck, workerStuck, cannotSucceed,
        Sys.step, masterStep, workerStep, stepThread, compare_exchange_weak, atomic_store,
        IPCTaskLock._store, IPCTaskLock.await, IPCTaskLock.start, IPCTaskLock.end_,
        IPCTaskLock._change_state]
  · rcases hm with rfl | ⟨y, rfl⟩ <;> rcases hw with rfl | rfl <;>
      simp [masterStuck, workerStuck, cannotSucceed,
        Sys.step, masterStep, workerStep, stepThread, compare_exchange_weak, atomic_store,
        IPCTaskLock._store, IPCTaskLock.await, IPCTaskLock.start, IPCTaskLock.end_,
        IPCTaskLock._change_state]
  · rcases hm with rfl | ⟨y, rfl⟩ <;> rcases hw with rfl | rfl | ⟨x, rfl⟩ <;>
      simp [masterStuck, workerStuck, cannotSucceed,
        Sys.step, masterStep, workerStep, stepThread, compare_exchange_weak, atomic_store,
        IPCTaskLock._store, IPCTaskLock.await, IPCTaskLock.start, IPCTaskLock.end_,
        IPCTaskLock._change_state]

/-- C14: in the two-party protocol started with the latch at 0, after every interleaving the
master and the worker are not both spinning on a compare-and-swap that cannot succeed, and
one of them, not so spinning, changes the latch within two steps of its own (a store, or a
compare-and-swap whose expected value is the value of the latch). -/
theorem no_deadlock (acts : List Action) :
    ¬ (masterStuck (Sys.run Sys.init acts) = true ∧
        workerStuck (Sys.run Sys.init acts) = true) ∧
    ((masterStuck (Sys.run Sys.init acts) = false ∧
        (((Sys.run Sys.init acts).step (Action.master false)).step
          (Action.master false)).latch ≠ (Sys.run Sys.init acts).latch) ∨
      (workerStuck (Sys.run Sys.init acts) = false ∧
        (((Sys.run Sys.init acts).step (Action.worker false)).step
          (Action.worker false)).latch ≠ (Sys.run Sys.init acts).latch)) :=
  inv_progress _ (inv_run acts)

theorem flow_run_snoc (f : Flow) (acts : List FlowAction) (a : FlowAction) :
    Flow.run f (acts ++ [a]) = (Flow.run f acts).step a := by
  simp [Flow.run, List.foldl_append]

/-- A party that spins in `await()` while the latch is 1 goes on spinning and leaves the
latch at 1. -/
theorem party_step_spins (p : Party) (sp : Bool) (h : spinsInAwait p.pc) :
    (Party.step 1 p sp).1 = 1 ∧ spinsInAwait (Party.step 1 p sp).2.pc := by
  obtain ⟨prog, n, pc⟩ := p
  rcases h with h | ⟨x, h⟩ <;> simp only at h <;> subst h
  · cases sp <;>
      simp [Party.step, stepThread, compare_exchange_weak, spinsInAwait]
  · simp [Party.step, stepThread, spinsInAwait]

/-- With the latch at 1 and both sides spinning in `await()`, nothing changes any more. -/
theorem flow_stuck (f : Flow) (hl : f.latch = 1) (hp : spinsInAwait f.producer.pc)
    (hc : spinsInAwait f.consumer.pc) (acts : List FlowAction) :
    (Flow.run f acts).latch = 1 ∧ spinsInAwait (Flow.run f acts).producer.pc ∧
      spinsInAwait (Flow.run f acts).consumer.pc := by
  induction acts using List.reverseRecOn with
  | nil => exact ⟨hl, hp, hc⟩
  | append_singleton acts a ih =>
    rw [flow_run_snoc]
    obtain ⟨h1, h2, h3⟩ := ih
    cases a with
    | producer sp =>
      have := party_step_spins (Flow.run f acts).producer sp h2
      simp only [Flow.step, h1]
      exact ⟨this.1, this.2, h3⟩
    | consumer sp =>
      have := party_step_spins (Flow.run f acts).consumer sp h3
      simp only [Flow.step, h1]
      exact ⟨this.1, h2, this.2⟩

/-- C15, as stated, fails: in the flow of the overview (producer: `end()`, `await()`;
consumer: `await()`, `end()`), after the interleaving `lostHandoffSchedule` the producer's
`end()` has stored 3 while the consumer was inside `await()`, the producer's own `await()`
has overwritten it with 1, both sides spin inside `await()`, and whatever steps follow the
latch stays 1 and both go on spinning. -/
theorem overview_flow_loses_handoff :
    (Flow.run Flow.init (lostHandoffSchedule.take 4)).latch = 3 ∧
    (Flow.run Flow.init (lostHandoffSchedule.take 4)).consumer.pc = Pc.changeCas 3 0 3 ∧
    Flow.run Flow.init lostHandoffSchedule =
      { latch := 1
        producer := { program := [Method.end_, Method.await], next := 2,
                      pc := Pc.changeCas 3 0 3 }
        consumer := { program := [Method.await, Method.end_], next := 1,
                      pc := Pc.changeCas 3 0 3 } } ∧
    ∀ acts : List FlowAction,
      (Flow.run (Flow.run Flow.init lostHandoffSchedule) acts).latch = 1 ∧
      spinsInAwait (Flow.run (Flow.run Flow.init lostHandoffSchedule) acts).producer.pc ∧
      spinsInAwait (Flow.run (Flow.run Flow.init lostHandoffSchedule) acts).consumer.pc :=
  ⟨by decide, by decide, by decide,
    fun acts => flow_stuck _ (by decide) (Or.inl (by decide)) (Or.inl (by decide)) acts⟩

/-- What a step does to a state of the invariant whose latch holds a handoff (1 or 3). -/
theorem inv_handoff (s : Sys) (h : Sys.Inv s) (a : Action) :
    (s.latch = 1 → (s.step a).latch = 1 ∨
      ((s.step a).latch = 2 ∧ (s.step a).worker = WorkerPc.own ∧ a = Action.worker false)) ∧
    (s.latch = 3 → (s.step a).latch = 3 ∨
      ((s.step a).latch = 0 ∧ (s.step a).master = MasterPc.own ∧ a = Action.master false)) := by
  obtain ⟨l, m, w⟩ := s
  simp only [Sys.Inv, masterOutside, masterSpinning, workerWaiting, workerInside] at h
  rcases h with ⟨hl, hm, hw⟩ | ⟨hl, hm, hw⟩ | ⟨hl, hm, hw⟩ | ⟨hl, hm, hw⟩ <;> subst hl
  · simp
  · rcases hm with rfl | ⟨y, rfl⟩ <;> rcases hw with rfl | rfl | ⟨x, rfl⟩ <;>
      rcases a with sp | sp <;> cases sp <;>
      simp [Sys.step, masterStep, workerStep, stepThread, compare_exchange_weak, atomic_store,
        IPCTaskLock._store, IPCTaskLock.await, IPCTaskLock.start, IPCTaskLock.end_,
        IPCTaskLock._change_state]
  · simp
  · rcases hm with rfl | ⟨y, rfl⟩ <;> rcases hw with rfl | rfl | ⟨x, rfl⟩ <;>
      rcases a with sp | sp <;> cases sp <;>
      simp [Sys.step, masterStep, workerStep, stepThread, compare_exchange_weak, atomic_store,
        IPCTaskLock._store, IPCTaskLock.await, IPCTaskLock.start, IPCTaskLock.end_,
        IPCTaskLock._change_state]

/-- C15, amended: when the master hands off and waits with `await()` and the worker waits
with `start()` and hands back with `end()`, then after every interleaving: a latch at 1 (the
master's handoff) stays at 1 until the worker's compare-and-swap in `start()` replaces it by
2 and the worker owns the buffer, and that compare-and-swap succeeds when it does not fail
spuriously; a latch at 3 (the worker's handoff by `end()`) stays at 3 until the master's
compare-and-swap in `await()` replaces it by 0 and the master owns the buffer, and that
compare-and-swap succeeds when it does not fail spuriously; and the two sides are never both
spinning on a compare-and-swap that cannot succeed. -/
theorem handoff_kept (acts : List Action) (a : Action) :
    ((Sys.run Sys.init acts).latch = 1 →
      ((Sys.run Sys.init acts).step a).latch = 1 ∨
      (((Sys.run Sys.init acts).step a).latch = 2 ∧
        ((Sys.run Sys.init acts).step a).worker = WorkerPc.own ∧ a = Action.worker false)) ∧
    ((Sys.run Sys.init acts).latch = 1 →
      (Sys.run Sys.init acts).worker = WorkerPc.inStart (Pc.changeCas 1 2 1) →
      ((Sys.run Sys.init acts).step (Action.worker false)).latch = 2 ∧
      ((Sys.run Sys.init acts).step (Action.worker false)).worker = WorkerPc.own) ∧
    ((Sys.run Sys.init acts).latch = 3 →
      ((Sys.run Sys.init acts).step a).latch = 3 ∨
      (((Sys.run Sys.init acts).step a).latch = 0 ∧
        ((Sys.run Sys.init acts).step a).master = MasterPc.own ∧ a = Action.master false)) ∧
    ((Sys.run Sys.init acts).latch = 3 →
      (Sys.run Sys.init acts).master = MasterPc.inAwait (Pc.changeCas 3 0 3) →
      ((Sys.run Sys.init acts).step (Action.master false)).latch = 0 ∧
      ((Sys.run Sys.init acts).step (Action.master false)).master = MasterPc.own) ∧
    ¬ (masterStuck (Sys.run Sys.init acts) = true ∧
        workerStuck (Sys.run Sys.init acts) = true) := by
  refine ⟨(inv_handoff _ (inv_run acts) a).1, ?_, (inv_handoff _ (inv_run acts) a).2, ?_,
    (inv_progress _ (inv_run acts)).1⟩
  · intro hl hw
    cases hs : Sys.run Sys.init acts with
    | mk l m w =>
      rw [hs] at hl hw
      simp only at hl hw
      subst hl
      subst hw
      simp [Sys.step, workerStep, stepThread, compare_exchange_weak]
  · intro hl hm
    cases hs : Sys.run Sys.init acts with
    | mk l m w =>
      rw [hs] at hl hm
      simp only at hl hm
      subst hl
      subst hm
      simp [Sys.step, masterStep, stepThread, compare_exchange_weak]

/-- C15, amended, on the interleaving `roundSchedule` : after four steps the latch is 1 with
the worker at its compare-and-swap, whose step takes the latch to 2; after eight steps the
latch is 3, and the master's next compare-and-swap takes it to 0. -/
theorem handoff_kept_witness :
    (Sys.run Sys.init (roundSchedule.take 4)).latch = 1 ∧
    (Sys.run Sys.init (roundSchedule.take 4)).worker = WorkerPc.inStart (Pc.changeCas 1 2 1) ∧
    ((Sys.run Sys.init (roundSchedule.take 4)).step (Action.worker false)).latch = 2 ∧
    ((Sys.run Sys.init (roundSchedule.take 4)).step (Action.worker false)).worker =
      WorkerPc.own :=
  ⟨by decide, by decide,
    (handoff_kept (roundSchedule.take 4) (Action.worker false)).2.1 (by decide) (by decide)⟩

/-! ## The op kernel: the writes against the allocated output -/

/-- The projection of `2^29 + 1` records `(1, 1, 1, 1)` succeeds and writes the position
`-2^31`. -/
theorem projection_wraps_exists :
    ∃ out, IPC2TFunctor 16 onesMemory 536870913 0 zeroOut = some out ∧
      out (-2147483648) = 1 := by
  have hn : Int.toNat 536870913 = 536870912 + 1 := rfl
  obtain ⟨out, h⟩ := functorLoop_isSome 16 onesMemory 0 (Int.toNat 536870913) 0 zeroOut
    (fun _ _ _ => rfl)
  refine ⟨out, h, ?_⟩
  rw [hn, functorLoop_succ_last] at h
  obtain ⟨o, _, ho⟩ := Option.bind_eq_some.mp h
  simp only [functorBody, input_buffer, onesMemory, Option.some.injEq] at ho
  rw [← ho]
  simp [write, add32, mul32, wrapInt32]

/-- C18, the code at size 1: the invocation passes the element-count check and allocates an
output of one element (same defect as C4: the shape is built from one dimension), and the
projection writes the positions 0, 1, 2, 3, of which 1, 2 and 3 are not below the number
of elements. -/
theorem writes_leave_allocated_output :
    ∃ op t tr, IpcToTensorOp.construct 1 0 = Except.ok op ∧
      NumElements op._output_shape ≤ kint32max ∧
      IpcToTensorOp.Compute op 16 demoMemory zeroOut = Outcome.ok t ∧
      NumElements t.shape = 1 ∧
      IPC2TFunctorTraced 16 demoMemory op._input_size op._input_address zeroOut = some tr ∧
      tr.writes = [0, 1, 2, 3] ∧
      t.data 3 = 3 ∧ zeroOut 3 = 0 :=
  ⟨_, _, _, rfl, by decide, rfl, rfl, rfl, rfl, rfl, rfl⟩

/-- C19, the code at size `2^29 + 1`: the constructor succeeds, the element count of the
output is the size (same defect as C4), so the check against `kint32max` passes and the
invocation returns an output; for the record `i = 2^29 < size` the index `4 * i + 0` computed
in `int` is `-2^31`, not `2^31`, and the projection writes there. -/
theorem index_overflow_passes_check :
    ∃ op t, IpcToTensorOp.construct 536870913 0 = Except.ok op ∧
      NumElements op._output_shape ≤ kint32max ∧
      (536870912 : Int) < op._input_size ∧
      add32 (mul32 4 536870912) 0 = -2147483648 ∧
      (4 * 536870912 + 0 : Int) = 2147483648 ∧
      IpcToTensorOp.Compute op 16 onesMemory zeroOut = Outcome.ok t ∧
      t.data (-2147483648) = 1 ∧ zeroOut (-2147483648) = 0 := by
  obtain ⟨out, h, hv⟩ := projection_wraps_exists
  exact ⟨{ _input_size := 536870913, _input_address := 0, _output_shape := [536870913] },
    { shape := [536870913], data := out }, rfl, by decide, by decide, by decide, by decide,
    Compute_ok _ 16 onesMemory zeroOut out (by decide) h, hv, rfl⟩

/-! ## Ownership of the mapped region -/

theorem unmapIfSet_latchOf (st : Objects) (l : Int) :
    (st.unmapIfSet l).latchOf = st.latchOf := by
  unfold Objects.unmapIfSet Objects.munmap
  split <;> rfl

theorem unmapIfSet_maps (st : Objects) (l : Int) : (st.unmapIfSet l).maps = st.maps := by
  unfold Objects.unmapIfSet Objects.munmap
  split <;> rfl

theorem unmapIfSet_unmaps (st : Objects) (l : Int) :
    (st.unmapIfSet l).unmaps = st.unmaps ++ (if l ≠ 0 then [l] else []) := by
  unfold Objects.unmapIfSet Objects.munmap
  split <;> simp

/-- The move assignment between two live objects, in one expression. -/
theorem moveAssign_eq (st : Objects) (this other : Nat) (l otherLatch : Int)
    (h1 : st.latchOf this = some l) (h2 : st.latchOf other = some otherLatch) :
    IPCTaskLock.moveAssign st this other =
      ((st.unmapIfSet l).setLatch this (some otherLatch)).setLatch other (some 0) := by
  have h3 : (st.unmapIfSet l).latchOf other = some otherLatch := by
    rw [unmapIfSet_latchOf]; exact h2
  simp only [IPCTaskLock.moveAssign, h1, h3]

theorem moveAssign_unmaps (st : Objects) (this other : Nat) (l otherLatch : Int)
    (h1 : st.latchOf this = some l) (h2 : st.latchOf other = some otherLatch) :
    (IPCTaskLock.moveAssign st this other).unmaps =
      st.unmaps ++ (if l ≠ 0 then [l] else []) := by
  rw [moveAssign_eq st this other l otherLatch h1 h2]
  exact unmapIfSet_unmaps st l

theorem destruct_unmaps (st : Objects) (o : Nat) (l : Int) (h : st.latchOf o = some l) :
    (IPCTaskLock.destruct st o).unmaps = st.unmaps ++ (if l ≠ 0 then [l] else []) := by
  simp only [IPCTaskLock.destruct, h, Objects.setLatch]
  exact unmapIfSet_unmaps st l

theorem destruct_latchOf_ne (st : Objects) (o u : Nat) (hu : u ≠ o) :
    (IPCTaskLock.destruct st o).latchOf u = st.latchOf u := by
  unfold IPCTaskLock.destruct
  cases h : st.latchOf o with
  | none => rfl
  | some l => simp [Objects.setLatch, hu, unmapIfSet_latchOf]

/-- C12: when the latch `b` is move-assigned from another latch `a`, `b` holds what `a` held,
`a` holds `nullptr` and no other object changes; the assignment unmaps the region `b` held
before, if any, and nothing else; destroying the moved-from `a` afterwards unmaps nothing;
destroying `b` afterwards, or overwriting it by a further move assignment, unmaps the region
`a` held, once; so a region of `a` that was mapped and not shared with `b` is not unmapped by
the assignment nor by the destruction of `a`, and is unmapped exactly once when both are
destroyed, and a region of `b` that was mapped is unmapped exactly once by the
assignment. -/
theorem move_semantics (st : Objects) (a b : Nat) (ra rb : Int) (hab : a ≠ b)
    (ha : st.latchOf a = some ra) (hb : st.latchOf b = some rb) :
    (IPCTaskLock.moveAssign st b a).latchOf b = some ra ∧
    (IPCTaskLock.moveAssign st b a).latchOf a = some 0 ∧
    (∀ o, o ≠ a → o ≠ b → (IPCTaskLock.moveAssign st b a).latchOf o = st.latchOf o) ∧
    (IPCTaskLock.moveAssign st b a).maps = st.maps ∧
    (IPCTaskLock.moveAssign st b a).unmaps = st.unmaps ++ (if rb ≠ 0 then [rb] else []) ∧
    (IPCTaskLock.destruct (IPCTaskLock.moveAssign st b a) a).unmaps =
      (IPCTaskLock.moveAssign st b a).unmaps ∧
    (IPCTaskLock.destruct (IPCTaskLock.moveAssign st b a) b).unmaps =
      (IPCTaskLock.moveAssign st b a).unmaps ++ (if ra ≠ 0 then [ra] else []) ∧
    (IPCTaskLock.destruct (IPCTaskLock.destruct (IPCTaskLock.moveAssign st b a) a) b).unmaps =
      (IPCTaskLock.moveAssign st b a).unmaps ++ (if ra ≠ 0 then [ra] else []) ∧
    (∀ c, (IPCTaskLock.moveAssign st b a).latchOf c ≠ none →
      (IPCTaskLock.moveAssign (IPCTaskLock.moveAssign st b a) b c).unmaps =
        (IPCTaskLock.moveAssign st b a).unmaps ++ (if ra ≠ 0 then [ra] else [])) ∧
    (ra ≠ 0 → ra ≠ rb → ra ∉ st.unmaps →
      (IPCTaskLock.moveAssign st b a).unmaps.count ra = 0 ∧
      (IPCTaskLock.destruct (IPCTaskLock.moveAssign st b a) a).unmaps.count ra = 0 ∧
      (IPCTaskLock.destruct (IPCTaskLock.destruct (IPCTaskLock.moveAssign st b a) a)
        b).unmaps.count ra = 1) ∧
    (rb ≠ 0 → rb ∉ st.unmaps → (IPCTaskLock.moveAssign st b a).unmaps.count rb = 1) := by
  have hba : b ≠ a := fun h => hab h.symm
  have hassign := moveAssign_eq st b a rb ra hb ha
  have hunmaps := moveAssign_unmaps st b a rb ra hb ha
  have hlb : (IPCTaskLock.moveAssign st b a).latchOf b = some ra := by
    rw [hassign]; simp [Objects.setLatch, hba]
  have hla : (IPCTaskLock.moveAssign st b a).latchOf a = some 0 := by
    rw [hassign]; simp [Objects.setLatch]
  have hda : (IPCTaskLock.destruct (IPCTaskLock.moveAssign st b a) a).unmaps =
      (IPCTaskLock.moveAssign st b a).unmaps := by
    rw [destruct_unmaps _ a 0 hla]; simp
  have hdb := destruct_unmaps _ b ra hlb
  have hdab : (IPCTaskLock.destruct (IPCTaskLock.destruct (IPCTaskLock.moveAssign st b a) a)
      b).unmaps = (IPCTaskLock.moveAssign st b a).unmaps ++ (if ra ≠ 0 then [ra] else []) := by
    have h1 : (IPCTaskLock.destruct (IPCTaskLock.moveAssign st b a) a).latchOf b = some ra := by
      rw [destruct_latchOf_ne _ a b hba]; exact hlb
    rw [destruct_unmaps _ b ra h1, hda]
  refine ⟨hlb, hla, ?_, ?_, hunmaps, hda, hdb, hdab, ?_, ?_, ?_⟩
  · intro o hoa hob
    rw [hassign]
    simp only [Objects.setLatch, hoa, hob, if_false, unmapIfSet_latchOf]
  · rw [hassign]
    simp only [Objects.setLatch, unmapIfSet_maps]
  · intro c hc
    cases hlc : (IPCTaskLock.moveAssign st b a).latchOf c with
    | none => exact absurd hlc hc
    | some rc => exact moveAssign_unmaps _ b c ra rc hlb hlc
  · intro hra hne hfresh
    rw [hda, hdab, hunmaps]
    have h0 : (st.unmaps ++ (if rb ≠ 0 then [rb] else [])).count ra = 0 := by
      rw [List.count_eq_zero]
      intro hmem
      rcases List.mem_append.mp hmem with h | h
      · exact hfresh h
      · split at h
        · simp only [List.mem_singleton] at h; exact hne h
        · simp at h
    refine ⟨h0, h0, ?_⟩
    rw [List.count_append, h0]
    simp [hra]
  · intro hrb hfresh
    rw [hunmaps, List.count_append, List.count_eq_zero.mpr hfresh]
    simp [hrb]

/-- A valid move assignment keeps the ownership exclusive, self-assignment included. -/
theorem exclusive_moveAssign (st : Objects) (this other : Nat) (h : st.Exclusive)
    (h1 : st.latchOf this ≠ none) (h2 : st.latchOf other ≠ none) :
    (IPCTaskLock.moveAssign st this other).Exclusive := by
  obtain ⟨e1, e2, e3, e4⟩ := h
  cases hl : st.latchOf this with
  | none => exact absurd hl h1
  | some l =>
    cases hlo : st.latchOf other with
    | none => exact absurd hlo h2
    | some lo =>
      rw [moveAssign_eq st this other l lo hl hlo]
      have hlat : ∀ u, (((st.unmapIfSet l).setLatch this (some lo)).setLatch other
          (some 0)).latchOf u =
          if u = other then some 0 else if u = this then some lo else st.latchOf u := by
        intro u
        simp only [Objects.setLatch, unmapIfSet_latchOf]
      have hun : (((st.unmapIfSet l).setLatch this (some lo)).setLatch other
          (some 0)).unmaps = st.unmaps ++ (if l ≠ 0 then [l] else []) := by
        simp only [Objects.setLatch, unmapIfSet_unmaps]
      have hmp : (((st.unmapIfSet l).setLatch this (some lo)).setLatch other
          (some 0)).maps = st.maps := by
        simp only [Objects.setLatch, unmapIfSet_maps]
      have hnew : ∀ u x, (((st.unmapIfSet l).setLatch this (some lo)).setLatch other
          (some 0)).latchOf u = some x → x ≠ 0 →
          u ≠ other ∧ ((u = this ∧ x = lo ∧ st.latchOf other = some x) ∨
            (u ≠ this ∧ st.latchOf u = some x)) := by
        intro u x hu hx
        rw [hlat] at hu
        by_cases huo : u = other
        · rw [if_pos huo, Option.some.injEq] at hu
          exact absurd hu.symm hx
        · refine ⟨huo, ?_⟩
          by_cases hut : u = this
          · rw [if_neg huo, if_pos hut, Option.some.injEq] at hu
            exact Or.inl ⟨hut, hu.symm, by rw [hlo, hu]⟩
          · rw [if_neg huo, if_neg hut] at hu
            exact Or.inr ⟨hut, hu⟩
      refine ⟨?_, ?_, ?_, ?_⟩
      · intro u x hu hx
        rw [hun, hmp]
        obtain ⟨huo, hcase⟩ := hnew u x hu hx
        have hold : ∃ v, v ≠ this ∧ st.latchOf v = some x := by
          rcases hcase with ⟨hut, _, hox⟩ | ⟨hut, hux⟩
          · exact ⟨other, fun h => huo (hut.trans h.symm), hox⟩
          · exact ⟨u, hut, hux⟩
        obtain ⟨v, hv, hvx⟩ := hold
        refine ⟨(e1 v x hvx hx).1, ?_⟩
        intro hmem
        rcases List.mem_append.mp hmem with hm | hm
        · exact (e1 v x hvx hx).2 hm
        · split at hm
          · simp only [List.mem_singleton] at hm
            subst hm
            exact hv (e2 v this x hvx hl hx)
          · simp at hm
      · intro u1 u2 x hu1 hu2 hx
        obtain ⟨h1o, hc1⟩ := hnew u1 x hu1 hx
        obtain ⟨h2o, hc2⟩ := hnew u2 x hu2 hx
        rcases hc1 with ⟨ht1, _, ho1⟩ | ⟨ht1, hx1⟩ <;>
          rcases hc2 with ⟨ht2, _, ho2⟩ | ⟨ht2, hx2⟩
        · rw [ht1, ht2]
        · exact absurd (e2 u2 other x hx2 ho1 hx) h2o
        · exact absurd (e2 u1 other x hx1 ho2 hx) h1o
        · exact e2 u1 u2 x hx1 hx2 hx
      · rw [hun]
        split
        · rename_i hl0
          rw [List.nodup_append]
          refine ⟨e3, List.nodup_singleton l, ?_⟩
          intro y hy1 hy2
          simp only [List.mem_singleton] at hy2
          subst hy2
          exact (e1 this y hl hl0).2 hy1
        · simpa using e3
      · intro y hy
        rw [hmp]
        rw [hun] at hy
        rcases List.mem_append.mp hy with hm | hm
        · exact e4 y hm
        · split at hm
          · rename_i hl0
            simp only [List.mem_singleton] at hm
            subst hm
            exact (e1 this y hl hl0).1
          · simp at hm

/-- Giving a new object a null field keeps the ownership exclusive. -/
theorem exclusive_setNull (st : Objects) (o : Nat) (h : st.Exclusive) :
    (st.setLatch o (some 0)).Exclusive := by
  obtain ⟨e1, e2, e3, e4⟩ := h
  have hlat : ∀ u x, (st.setLatch o (some 0)).latchOf u = some x → x ≠ 0 →
      st.latchOf u = some x := by
    intro u x hu hx
    simp only [Objects.setLatch] at hu
    by_cases huo : u = o
    · rw [if_pos huo, Option.some.injEq] at hu
      exact absurd hu.symm hx
    · rw [if_neg huo] at hu
      exact hu
  exact ⟨fun u x hu hx => e1 u x (hlat u x hu hx) hx,
    fun u1 u2 x h1 h2 hx => e2 u1 u2 x (hlat u1 x h1 hx) (hlat u2 x h2 hx) hx, e3, e4⟩

/-- A valid construction keeps the ownership exclusive. -/
theorem exclusive_construct (st : Objects) (o : Nat) (region : Int) (h : st.Exclusive)
    (hfresh : region ∉ st.maps) :
    (IPCTaskLock.construct st o region).Exclusive := by
  obtain ⟨e1, e2, e3, e4⟩ := h
  have hcases : ∀ u x, (IPCTaskLock.construct st o region).latchOf u = some x → x ≠ 0 →
      (u = o ∧ x = region) ∨ (u ≠ o ∧ st.latchOf u = some x) := by
    intro u x hu hx
    simp only [IPCTaskLock.construct, Objects.setLatch] at hu
    by_cases huo : u = o
    · rw [if_pos huo, Option.some.injEq] at hu
      exact Or.inl ⟨huo, hu.symm⟩
    · rw [if_neg huo] at hu
      exact Or.inr ⟨huo, hu⟩
  refine ⟨?_, ?_, e3, ?_⟩
  · intro u x hu hx
    simp only [IPCTaskLock.construct, Objects.setLatch]
    rcases hcases u x hu hx with ⟨_, hxr⟩ | ⟨_, hux⟩
    · subst hxr
      exact ⟨by simp, fun hm => hfresh (e4 x hm)⟩
    · exact ⟨List.mem_append_left _ (e1 u x hux hx).1, (e1 u x hux hx).2⟩
  · intro u1 u2 x h1 h2 hx
    rcases hcases u1 x h1 hx with ⟨hu1, hx1⟩ | ⟨hu1, hx1⟩ <;>
      rcases hcases u2 x h2 hx with ⟨hu2, hx2⟩ | ⟨hu2, hx2⟩
    · rw [hu1, hu2]
    · subst hx1; exact absurd (e1 u2 x hx2 hx).1 hfresh
    · subst hx2; exact absurd (e1 u1 x hx1 hx).1 hfresh
    · exact e2 u1 u2 x hx1 hx2 hx
  · intro y hy
    simp only [IPCTaskLock.construct, Objects.setLatch] at hy ⊢
    exact List.mem_append_left _ (e4 y hy)

/-- A valid destruction keeps the ownership exclusive. -/
theorem exclusive_destruct (st : Objects) (o : Nat) (h : st.Exclusive) :
    (IPCTaskLock.destruct st o).Exclusive := by
  obtain ⟨e1, e2, e3, e4⟩ := h
  cases hl : st.latchOf o with
  | none => simp only [IPCTaskLock.destruct, hl]; exact ⟨e1, e2, e3, e4⟩
  | some l =>
    have hun := destruct_unmaps st o l hl
    have hmp : (IPCTaskLock.destruct st o).maps = st.maps := by
      simp only [IPCTaskLock.destruct, hl, Objects.setLatch, unmapIfSet_maps]
    have hlat : ∀ u x, (IPCTaskLock.destruct st o).latchOf u = some x →
        u ≠ o ∧ st.latchOf u = some x := by
      intro u x hu
      by_cases huo : u = o
      · simp [IPCTaskLock.destruct, hl, Objects.setLatch, huo] at hu
      · rw [destruct_latchOf_ne st o u huo] at hu
        exact ⟨huo, hu⟩
    refine ⟨?_, ?_, ?_, ?_⟩
    · intro u x hu hx
      obtain ⟨huo, hux⟩ := hlat u x hu
      rw [hun, hmp]
      refine ⟨(e1 u x hux hx).1, ?_⟩
      intro hmem
      rcases List.mem_append.mp hmem with hm | hm
      · exact (e1 u x hux hx).2 hm
      · split at hm
        · simp only [List.mem_singleton] at hm
          subst hm
          exact huo (e2 u o x hux hl hx)
        · simp at hm
    · intro u1 u2 x h1 h2 hx
      exact e2 u1 u2 x (hlat u1 x h1).2 (hlat u2 x h2).2 hx
    · rw [hun]
      split
      · rename_i hl0
        rw [List.nodup_append]
        refine ⟨e3, List.nodup_singleton l, ?_⟩
        intro y hy1 hy2
        simp only [List.mem_singleton] at hy2
        subst hy2
        exact (e1 o y hl hl0).2 hy1
      · simpa using e3
    · intro y hy
      rw [hmp]
      rw [hun] at hy
      rcases List.mem_append.mp hy with hm | hm
      · exact e4 y hm
      · split at hm
        · rename_i hl0
          simp only [List.mem_singleton] at hm
          subst hm
          exact (e1 o y hl hl0).1
        · simp at hm

/-- A valid operation keeps the ownership exclusive. -/
theorem exclusive_apply (st : Objects) (op : Op) (h : st.Exclusive) (hv : op.valid st) :
    (st.apply op).Exclusive := by
  cases op with
  | construct o region => exact exclusive_construct st o region h hv.2.2
  | moveConstruct o other garbage =>
    obtain ⟨ho, hother, hg⟩ := hv
    subst hg
    have hne : other ≠ o := by
      intro heq
      rw [heq] at hother
      exact hother ho
    apply exclusive_moveAssign _ o other (exclusive_setNull st o h)
    · simp [Objects.setLatch]
    · simp only [Objects.setLatch, hne, if_false]
      exact hother
  | moveAssign this other => exact exclusive_moveAssign st this other h hv.1 hv.2
  | destruct o => exact exclusive_destruct st o h

/-- A valid sequence of operations keeps the ownership exclusive. -/
theorem exclusive_run (ops : List Op) :
    ∀ st : Objects, st.Exclusive → st.validRun ops → (st.run ops).Exclusive := by
  induction ops with
  | nil => intro st h _; exact h
  | cons op ops ih =>
    intro st h hv
    exact ih (st.apply op) (exclusive_apply st op h hv.1) hv.2

theorem exclusive_empty : Objects.empty.Exclusive :=
  ⟨fun _ _ h => by simp [Objects.empty] at h, fun _ _ _ h => by simp [Objects.empty] at h,
    List.nodup_nil, fun _ h => by simp [Objects.empty] at h⟩

/-- C12 on two latches: object 1, holding the region at 200, is move-assigned from object 0,
holding the region at 100. -/
theorem move_semantics_witness :
    (0 : Nat) ≠ 1 ∧ twoLatches.latchOf 0 = some 100 ∧ twoLatches.latchOf 1 = some 200 ∧
    (IPCTaskLock.moveAssign twoLatches 1 0).latchOf 1 = some 100 ∧
    (IPCTaskLock.moveAssign twoLatches 1 0).latchOf 0 = some 0 ∧
    (IPCTaskLock.moveAssign twoLatches 1 0).unmaps =
      twoLatches.unmaps ++ (if (200 : Int) ≠ 0 then [200] else []) ∧
    (IPCTaskLock.destruct (IPCTaskLock.destruct (IPCTaskLock.moveAssign twoLatches 1 0) 0)
      1).unmaps = [200, 100] :=
  ⟨by decide, rfl, rfl, (move_semantics twoLatches 0 1 100 200 (by decide) rfl rfl).1,
    (move_semantics twoLatches 0 1 100 200 (by decide) rfl rfl).2.1,
    (move_semantics twoLatches 0 1 100 200 (by decide) rfl rfl).2.2.2.2.1, rfl⟩

/-- C20, the code on a move construction: object 0 is constructed on the region at 100,
object 2 on the region at 200, and object 1 is move-constructed from object 0 while its
uninitialised field `_latch` happens to hold 200. The move construction calls `munmap` on
200, the region that the live object 2 still holds, and the destruction of object 2 unmaps
the same region a second time. With the field holding 0 the move construction unmaps
nothing, and every sequence of constructions, move constructions from a field that holds 0,
move assignments (self-assignment included) and destructions keeps the ownership
exclusive. -/
theorem move_construction_unmaps_garbage :
    (Objects.run Objects.empty
      [Op.construct 0 100, Op.construct 2 200, Op.moveConstruct 1 0 200]).unmaps = [200] ∧
    (Objects.run Objects.empty
      [Op.construct 0 100, Op.construct 2 200, Op.moveConstruct 1 0 200]).latchOf 2 =
        some 200 ∧
    (Objects.run Objects.empty
      [Op.construct 0 100, Op.construct 2 200, Op.moveConstruct 1 0 200,
       Op.destruct 2]).unmaps = [200, 200] ∧
    (Objects.run Objects.empty
      [Op.construct 0 100, Op.construct 2 200, Op.moveConstruct 1 0 0]).unmaps = [] ∧
    (∀ ops : List Op, Objects.empty.validRun ops → (Objects.run Objects.empty ops).Exclusive) :=
  ⟨rfl, rfl, rfl, rfl, fun ops hv => exclusive_run ops Objects.empty exclusive_empty hv⟩

end HoomdTF
